import Mathlib

/-!
Shallow embedding of the ReFS disk-image explorer's analysis engine
(`src/lib/refs-parser.ts` / `src/types/forensic.ts`, `src/lib/search-engine.ts`,
`src/lib/export-engine.ts`) together with theorems settling the frozen claims
about it.

Modelling conventions:
* JavaScript strings are lists of characters (`JStr`).  `toLowerCase`,
  `includes`, `indexOf`, `split` are modelled character-wise; the regex class
  `\s` used by the tokenizer is modelled as the common ASCII whitespace
  characters.
* JavaScript numbers that hold byte counts, identifiers and bit masks are
  `Nat`; scores (which can be decremented) are `Int`; `Date` values
  (milliseconds since the Unix epoch) are exact rationals — the engine never
  branches on fractional parts, so the float/real gap is irrelevant here.
* An `ArrayBuffer` is a length plus a byte function (`ByteBuf`); every
  `DataView`/`Uint8Array` access in the source is bounds-checked by the
  JavaScript runtime (a `RangeError` is thrown on overrun), modelled by
  `Except RErr`.
* `Math.random()` and `new Date()` are threaded as explicit parameters
  (`rand : Nat → ℚ`, draws consumed in source order, and `now : ℚ`).
* The progress callback is presentation-only and is dropped.
-/

namespace RefsExplorer

/-- JavaScript string, modelled as its list of UTF-16-ish characters. -/
abbrev JStr := List Char

/-- Source `String.prototype.toLowerCase`, ASCII-faithful (the engine only compares
lowered strings for equality/containment). -/
def lowerStr (s : JStr) : JStr := s.map Char.toLower

/-- Does `pat` occur in `text` starting at position `i`?  (Helper for
`indexOf` / `includes`.) -/
def occursAt (text pat : JStr) (i : Nat) : Bool :=
  decide ((text.drop i).take pat.length = pat)

/-- All start positions of `pat` inside `text`, ascending.  For a non-empty
needle this is exactly the sequence of indices produced by the source's
`indexOf` loop (which restarts the scan at `index + 1`, so overlapping
occurrences are all found, in ascending order). -/
def occurrences (text pat : JStr) : List Nat :=
  (List.range (text.length + 1)).filter (occursAt text pat)

/-- Source `String.prototype.includes`. -/
def strContains (text pat : JStr) : Bool := !(occurrences text pat).isEmpty

/-- Source `String.prototype.split(sep)` for a single-character separator: keeps
empty fields (unlike the tokenizer).  Auxiliary accumulator holds the current
field reversed. -/
def splitCharAux (sep : Char) : JStr → JStr → List JStr
  | [], cur => [cur.reverse]
  | c :: rest, cur =>
      if c = sep then cur.reverse :: splitCharAux sep rest []
      else splitCharAux sep rest (c :: cur)

def splitChar (sep : Char) (s : JStr) : List JStr := splitCharAux sep s []

/-- The separator class of the search tokenizer, `/[\s\-_./\\]+/`; `\s` is
modelled as ASCII whitespace. -/
def isSepChar (c : Char) : Bool :=
  c = ' ' || c = '\t' || c = '\n' || c = '\x0d' || c = '\x0b' || c = '\x0c' ||
  c = '-' || c = '_' || c = '.' || c = '/' || c = '\\'

/-- Split into maximal runs of non-separator characters; splitting on the
`+`-quantified class and filtering empty tokens (as the source does) yields
exactly these runs. -/
def tokenizeAux : JStr → JStr → List JStr
  | [], cur => if cur.isEmpty then [] else [cur.reverse]
  | c :: rest, cur =>
      if isSepChar c then
        if cur.isEmpty then tokenizeAux rest [] else cur.reverse :: tokenizeAux rest []
      else tokenizeAux rest (c :: cur)

/-- Source `ForensicSearchEngine.tokenize`. -/
def tokenize (s : JStr) : List JStr := tokenizeAux s []

/-- Decimal rendering of a natural number (`Number.prototype.toString`). -/
def natToStr (n : Nat) : JStr := (Nat.repr n).data

/-- An `ArrayBuffer`: a length and the byte at each offset.  Reads go through
`ByteBuf.at`, which truncates to one byte, so the representation of
out-of-range values is irrelevant. -/
structure ByteBuf where
  len : Nat
  byte : Nat → Nat

def ByteBuf.at (b : ByteBuf) (i : Nat) : Nat := b.byte i % 256

/-- A JavaScript `RangeError` thrown by a `DataView` read or a `Uint8Array`
view whose extent exceeds the buffer. -/
inductive RErr where
  | rangeError
deriving DecidableEq, Repr

/-- Source `DataView.getUint16(off, true)` (little endian, bounds-checked). -/
def getUint16 (b : ByteBuf) (off : Nat) : Except RErr Nat :=
  if off + 2 ≤ b.len then .ok (b.at off + 256 * b.at (off + 1)) else .error .rangeError

/-- Source `DataView.getUint32(off, true)`. -/
def getUint32 (b : ByteBuf) (off : Nat) : Except RErr Nat :=
  if off + 4 ≤ b.len then
    .ok (b.at off + 256 * b.at (off + 1) + 65536 * b.at (off + 2) + 16777216 * b.at (off + 3))
  else .error .rangeError

/-- Source `DataView.getBigUint64(off, true)`. -/
def getUint64 (b : ByteBuf) (off : Nat) : Except RErr Nat :=
  if off + 8 ≤ b.len then
    .ok (List.foldr (fun i acc => b.at (off + i) + 256 * acc) 0 (List.range 8).reverse)
  else .error .rangeError

/-- Source `new Uint8Array(buffer, off, n)` — throws `RangeError` when the view
would exceed the buffer. -/
def readBytes (b : ByteBuf) (off n : Nat) : Except RErr (List Nat) :=
  if off + n ≤ b.len then .ok ((List.range n).map (fun i => b.at (off + i))) else .error .rangeError

/-- Source `TextDecoder('ascii')` (WHATWG: windows-1252).  Bytes ≥ 0x80 decode to
non-ASCII code points; the engine only ever compares the result against the
ASCII signatures `ReFS`/`REFS`/`Mock`, so they are collapsed to U+FFFD. -/
def decodeAscii (bytes : List Nat) : JStr :=
  bytes.map (fun v => if v < 128 then Char.ofNat v else '�')

/-- Source `RefsParser.readString`. -/
def readString (b : ByteBuf) (off n : Nat) : Except RErr JStr :=
  (readBytes b off n).map decodeAscii

/-- Source `TextDecoder('utf-16le')` over `n * 2` bytes; code units are mapped to
characters directly (lone surrogates, which `Char.ofNat` rejects, are
collapsed — the engine never manufactures them). -/
def decodeUtf16le (bytes : List Nat) : JStr :=
  (List.range (bytes.length / 2)).map
    (fun i => Char.ofNat (bytes.getD (2 * i) 0 + 256 * bytes.getD (2 * i + 1) 0))

/-- Source `RefsParser.readUnicodeString` (length counted in UTF-16 code units). -/
def readUnicodeString (b : ByteBuf) (off n : Nat) : Except RErr JStr :=
  (readBytes b off (n * 2)).map decodeUtf16le

def hexChars : JStr := "0123456789abcdef".data

/-- Source `b.toString(16).padStart(2, '0')` for a byte. -/
def byteHex (v : Nat) : JStr := [hexChars.getD (v / 16) '0', hexChars.getD (v % 16) '0']

/-- Source `RefsParser.readGuid`: 16 bytes, hex-encoded and dash-grouped 8-4-4-4-12. -/
def readGuid (b : ByteBuf) (off : Nat) : Except RErr JStr :=
  (readBytes b off 16).map (fun bytes =>
    let hex := bytes.flatMap byteHex
    hex.take 8 ++ '-' :: ((hex.drop 8).take 4) ++ '-' :: ((hex.drop 12).take 4) ++
      '-' :: ((hex.drop 16).take 4) ++ '-' :: (hex.drop 20))

/-- Windows FILETIME → JavaScript `Date` (ms since the Unix epoch), from
`RefsParser.readFileTime`: `Number(filetime) / 10000 - 11644473600000`. -/
def fileTimeToDate (t : Nat) : ℚ := (t : ℚ) / 10000 - 11644473600000

/-- Source `RefsParser.readFileTime`. -/
def readFileTime (b : ByteBuf) (off : Nat) : Except RErr ℚ :=
  (getUint64 b off).map fileTimeToDate

/-- Source interface `RefsSuperblocK` (refs-parser.ts). -/
structure Superblock where
  signature : JStr
  version : Nat
  blockSize : Nat
  sectorsPerBlock : Nat
  bytesPerSector : Nat
  totalBlocks : Nat
  rootDirectoryBlock : Nat
  metadataTableBlock : Nat
  checkpointBlock : Nat
  volumeId : JStr
  creationTime : ℚ
  lastMountTime : ℚ
deriving DecidableEq, Repr

/-- Source interface `FileRecord` (refs-parser.ts). -/
structure FileRecord where
  fileId : Nat
  parentId : Nat
  fileName : JStr
  fileSize : Nat
  attributes : Nat
  creationTime : ℚ
  modificationTime : ℚ
  accessTime : ℚ
  isDirectory : Bool
  isDeleted : Bool
  md5Hash : Option JStr := none
  sha1Hash : Option JStr := none
deriving DecidableEq, Repr

/-- The parser's `fileRecords : Map<number, FileRecord>`, modelled as an
insertion-ordered association list (JavaScript `Map` iterates in insertion
order and `set` on an existing key updates in place). -/
abbrev Store := List (Nat × FileRecord)

/-- Source `Map.prototype.set`: update in place, or append a new entry. -/
def storeSet (s : Store) (k : Nat) (v : FileRecord) : Store :=
  match s with
  | [] => [(k, v)]
  | (k', v') :: rest => if k' = k then (k, v) :: rest else (k', v') :: storeSet rest k v

/-- Source `Map.prototype.get`. -/
def storeGet (s : Store) (k : Nat) : Option FileRecord :=
  match s with
  | [] => none
  | (k', v') :: rest => if k' = k then some v' else storeGet rest k

/-- Source `Map.prototype.has`. -/
def storeHas (s : Store) (k : Nat) : Bool := (storeGet s k).isSome

/-- Milliseconds value of `new Date('2024-01-01T00:00:00Z')`. -/
def epoch2024 : ℚ := 1704067200000

/-- Source `RefsParser.createMockSuperblock`.  Note `Math.floor(len/4096) || 1000`
substitutes 1000 only when the quotient is zero (JavaScript falsiness), not as
a lower bound. -/
def createMockSuperblock (len : Nat) (now : ℚ) : Superblock :=
  { signature := "ReFS (Mock)".data
    version := 3
    blockSize := 4096
    sectorsPerBlock := 8
    bytesPerSector := 512
    totalBlocks := if len / 4096 = 0 then 1000 else len / 4096
    rootDirectoryBlock := 10
    metadataTableBlock := 20
    checkpointBlock := 30
    volumeId := "12345678-1234-5678-9abc-123456789abc".data
    creationTime := epoch2024
    lastMountTime := now }

/-- Decoded signature field at the superblock offset (only meaningful when the
buffer reaches past offset `0x1E00 + 8`). -/
def signatureAt (b : ByteBuf) : JStr :=
  decodeAscii ((List.range 8).map (fun i => b.at (0x1E00 + i)))

/-- Has the 8-byte field at `0x1E00` one of the accepted magic tokens? -/
def hasRefsSignature (s : JStr) : Bool :=
  strContains s "ReFS".data || strContains s "REFS".data

/-- Source `RefsParser.parseSuperblock`.  The mock fallback is taken when the
buffer is shorter than `0x1E00 + 512` or the signature lacks the magic tokens;
otherwise the header fields are decoded in place (all those reads are in
bounds, so the real branch cannot overrun). -/
def parseSuperblock (b : ByteBuf) (now : ℚ) : Except RErr Superblock :=
  if b.len < 0x1E00 + 512 then .ok (createMockSuperblock b.len now)
  else do
    let signature ← readString b 0x1E00 8
    if hasRefsSignature signature then do
      let version ← getUint32 b (0x1E00 + 8)
      let blockSize ← getUint32 b (0x1E00 + 12)
      let sectorsPerBlock ← getUint32 b (0x1E00 + 16)
      let bytesPerSector ← getUint32 b (0x1E00 + 20)
      let totalBlocks ← getUint32 b (0x1E00 + 24)
      let rootDirectoryBlock ← getUint32 b (0x1E00 + 28)
      let metadataTableBlock ← getUint32 b (0x1E00 + 32)
      let checkpointBlock ← getUint32 b (0x1E00 + 36)
      let volumeId ← readGuid b (0x1E00 + 40)
      let creationTime ← readFileTime b (0x1E00 + 56)
      let lastMountTime ← readFileTime b (0x1E00 + 64)
      .ok { signature, version, blockSize, sectorsPerBlock, bytesPerSector, totalBlocks,
            rootDirectoryBlock, metadataTableBlock, checkpointBlock, volumeId,
            creationTime, lastMountTime }
    else .ok (createMockSuperblock b.len now)

/-- Source `RefsParser.parseFileRecord`: fixed-layout decode at `off`;
inserts into the store keyed by the 32-bit identifier.  The name read is the
only access that can overrun for an in-bounds entry start. -/
def parseFileRecord (b : ByteBuf) (off : Nat) (st : Store) : Except RErr Store := do
  let fileId ← getUint32 b (off + 8)
  let parentId ← getUint32 b (off + 12)
  let attributes ← getUint32 b (off + 16)
  let fileSize ← getUint64 b (off + 20)
  let creationTime ← readFileTime b (off + 28)
  let modificationTime ← readFileTime b (off + 36)
  let accessTime ← readFileTime b (off + 44)
  let fileNameLength ← getUint16 b (off + 52)
  let fileName ← readUnicodeString b (off + 54) fileNameLength
  let isDirectory := attributes.testBit 4
  let isDeleted := attributes.testBit 31
  .ok (storeSet st fileId
    { fileId, parentId, fileName, fileSize, attributes, creationTime, modificationTime,
      accessTime, isDirectory, isDeleted })

/-- The 21 fixed entries of `generateMockFileSystem`'s `mockStructure`:
(id, parent, name, isDir, size, deleted). -/
def mockStructure : List (Nat × Nat × String × Bool × Nat × Bool) :=
  [ (2, 1, "Windows", true, 0, false),
    (3, 1, "Program Files", true, 0, false),
    (4, 1, "Users", true, 0, false),
    (5, 1, "System Volume Information", true, 0, false),
    (6, 2, "System32", true, 0, false),
    (7, 2, "SysWOW64", true, 0, false),
    (8, 6, "kernel32.dll", false, 1024000, false),
    (9, 6, "ntdll.dll", false, 2048000, false),
    (10, 6, "user32.dll", false, 1536000, false),
    (11, 4, "Administrator", true, 0, false),
    (12, 4, "Public", true, 0, false),
    (13, 11, "Desktop", true, 0, false),
    (14, 11, "Documents", true, 0, false),
    (15, 13, "shortcut.lnk", false, 2048, false),
    (16, 14, "report.docx", false, 524288, false),
    (17, 14, "data.xlsx", false, 1048576, false),
    (18, 1, "$Recycle.Bin", true, 0, false),
    (19, 18, "deleted_file.txt", false, 4096, true),
    (20, 3, "Microsoft Office", true, 0, false),
    (21, 20, "WINWORD.EXE", false, 15728640, false) ]

/-- Fold of `mockStructure.forEach` with the random draws consumed two per
entry (creation offset, then modification offset), in source order. -/
def mockEntriesInto (now : ℚ) (rand : Nat → ℚ) : Nat → List (Nat × Nat × String × Bool × Nat × Bool) → Store → Store
  | _, [], st => st
  | k, (id, parent, name, isDir, size, deleted) :: rest, st =>
      let creationTime := epoch2024 + rand (2 * k) * (now - epoch2024)
      let modificationTime := creationTime + rand (2 * k + 1) * (now - creationTime)
      mockEntriesInto now rand (k + 1) rest (storeSet st id
        { fileId := id, parentId := parent, fileName := name.data, fileSize := size
          attributes := if isDir then 0x10 else 0x20
          creationTime, modificationTime, accessTime := modificationTime
          isDirectory := isDir, isDeleted := deleted })

/-- Source `RefsParser.generateMockFileSystem`: a root record (id 1, empty
name) plus the fixed sample hierarchy. -/
def generateMockFileSystem (now : ℚ) (rand : Nat → ℚ) (st : Store) : Store :=
  let st := storeSet st 1
    { fileId := 1, parentId := 0, fileName := [], fileSize := 0, attributes := 0x10
      creationTime := epoch2024, modificationTime := now, accessTime := now
      isDirectory := true, isDeleted := false }
  mockEntriesInto now rand 0 mockStructure st

/-- Scan loop of `parseMetadataTable` (at most 1000 entries; each step
advances by at least 128 bytes).  The loop guard `currentOffset <
byteLength - 128` matches the JavaScript comparison also for buffers shorter
than 128 bytes, where both sides make the guard false. -/
def metadataScan (b : ByteBuf) : Nat → Nat → Store → Except RErr Store
  | 0, _, st => .ok st
  | n + 1, cur, st =>
      if cur < b.len - 128 then do
        let entryType ← getUint32 b cur
        let entrySize ← getUint32 b (cur + 4)
        let st' ← if entryType = 0x30 then parseFileRecord b cur st else .ok st
        metadataScan b n (cur + max entrySize 128) st'
      else .ok st

/-- Source `RefsParser.parseMetadataTable`. -/
def parseMetadataTable (b : ByteBuf) (sb : Superblock) (now : ℚ) (rand : Nat → ℚ)
    (st : Store) : Except RErr Store :=
  let metadataOffset := sb.metadataTableBlock * sb.blockSize
  if b.len < metadataOffset + 1024 || strContains sb.signature "Mock".data then
    .ok (generateMockFileSystem now rand st)
  else do
    let st' ← metadataScan b 1000 metadataOffset st
    if st'.isEmpty then .ok (generateMockFileSystem now rand st') else .ok st'

/-- Leaf-node entry loop of `traverseBTreeNode` (at most `min keyCount 100`
entries, each advancing by at least 32 bytes). -/
def leafEntries (b : ByteBuf) : Nat → Nat → Store → Except RErr Store
  | 0, _, st => .ok st
  | n + 1, entryOffset, st => do
      let entrySize ← getUint16 b entryOffset
      let st' ← if 0 < entrySize && entrySize < 1024 then parseFileRecord b entryOffset st
                else .ok st
      leafEntries b n (entryOffset + max entrySize 32) st'

/-- Internal-node child loop of `traverseBTreeNode`: visits up to
`min (keyCount + 1) 50` child pointers through the supplied recursive
visitor. -/
def childVisits (b : ByteBuf) (totalBlocks : Nat)
    (visit : Nat → Store → Option (Except RErr Store)) (childOffset : Nat) :
    Nat → Nat → Store → Option (Except RErr Store)
  | 0, _, st => some (.ok st)
  | n + 1, i, st =>
      match getUint32 b (childOffset + i * 4) with
      | .error e => some (.error e)
      | .ok childBlock =>
          if 0 < childBlock && childBlock < totalBlocks then
            match visit childBlock st with
            | none => none
            | some (.error e) => some (.error e)
            | some (.ok st') => childVisits b totalBlocks visit childOffset n (i + 1) st'
          else childVisits b totalBlocks visit childOffset n (i + 1) st

/-- Source `RefsParser.traverseBTreeNode`, with the recursion made explicit
through a fuel parameter: `none` means the recursion in the source would have
descended deeper than the fuel allows.  The depth cap (`depth > 10`) is
checked first, exactly as in the source, so a capped branch ends before any
read.  `blockSize || 4096` models the JavaScript falsiness of a zero block
size. -/
def traverseAux (b : ByteBuf) (sb : Superblock) :
    Nat → Nat → Nat → Store → Option (Except RErr Store)
  | fuel, blockNumber, depth, st =>
    if 10 < depth then some (.ok st)
    else match fuel with
    | 0 => none
    | fuel + 1 =>
      let bs := if sb.blockSize = 0 then 4096 else sb.blockSize
      let offset := blockNumber * bs
      if b.len ≤ offset then some (.ok st)
      else
        match getUint32 b offset with
        | .error e => some (.error e)
        | .ok nodeHeader =>
          match getUint16 b (offset + 4) with
          | .error e => some (.error e)
          | .ok keyCount =>
            if nodeHeader.testBit 0 then
              some (leafEntries b (min keyCount 100) (offset + 16) st)
            else
              childVisits b sb.totalBlocks
                (fun blk st' => traverseAux b sb fuel blk (depth + 1) st')
                (offset + 16 + keyCount * 8) (min (keyCount + 1) 50) 0 st

/-- Source `RefsParser.traverseBTree`: start at the geometry's root block at
depth 0.  Fuel 12 exceeds the depth cap of 10, so the `none` branch is
unreachable (theorem `traverseAux_total`); the `.ok st` default only makes
the model total. -/
def traverseBTree (b : ByteBuf) (sb : Superblock) (st : Store) : Except RErr Store :=
  match traverseAux b sb 12 sb.rootDirectoryBlock 0 st with
  | some r => r
  | none => .ok st

/-- Kind tag of `FileSystemItem.type`. -/
inductive ItemType where
  | file | directory | partition | image
deriving DecidableEq, Repr

/-- Tree-locality hints `metadata.refs` attached by `buildFileTree`. -/
structure RefsInfo where
  blockNumber : Nat
  entryIndex : Nat
  btreeLevel : Nat
deriving DecidableEq, Repr

/-- Metadata block of a `FileSystemItem` (the fields actually written by the
parser and read by the search/export engines; each is optional because the
interface leaves them so). -/
structure ItemMeta where
  fileId : Option Nat := none
  parentId : Option Nat := none
  attributes : Option Nat := none
  isDeleted : Option Bool := none
  md5Hash : Option JStr := none
  sha1Hash : Option JStr := none
  refs : Option RefsInfo := none
deriving DecidableEq, Repr

/-- Scalar fields of a `FileSystemItem` (everything except `children`). -/
structure ItemCore where
  id : JStr
  name : JStr
  ty : ItemType
  size : Nat
  created : ℚ
  modified : ℚ
  accessed : ℚ
  path : JStr
  metadata : Option ItemMeta := none
deriving DecidableEq, Repr

/-- A list of `FileSystemItem`s.  The `children?: FileSystemItem[]` field of
each element is inlined into the constructors (`consN`: children absent,
`consS`: children present) so that all traversals are plain structural
recursions that the kernel can evaluate; `Item`/`Forest.ofItems` convert
between this encoding and the item-with-optional-children view. -/
inductive Forest where
  | nil : Forest
  | consN : ItemCore → Forest → Forest
  | consS : ItemCore → Forest → Forest → Forest
deriving DecidableEq, Repr

/-- Source interface `FileSystemItem`: scalar fields plus optional children. -/
structure Item where
  core : ItemCore
  children : Option Forest
deriving DecidableEq, Repr

/-- View a forest as the list of its top-level items. -/
def Forest.toItems : Forest → List Item
  | .nil => []
  | .consN c rest => ⟨c, none⟩ :: rest.toItems
  | .consS c cs rest => ⟨c, some cs⟩ :: rest.toItems

/-- Rebuild a forest from a list of items. -/
def Forest.ofItems : List Item → Forest
  | [] => .nil
  | ⟨c, none⟩ :: rest => .consN c (Forest.ofItems rest)
  | ⟨c, some cs⟩ :: rest => .consS c cs (Forest.ofItems rest)

/-- Truthiness of `item.metadata?.isDeleted`. -/
def Item.isDeleted (i : Item) : Bool :=
  match i.core.metadata with
  | some m => m.isDeleted.getD false
  | none => false

/-- Mutable item state during `buildFileTree`: the scalar fields plus the
children represented as a list of identifiers into the item map (`children`
holds object references in the source; identifiers play that role here). -/
structure BItem where
  id : JStr
  name : JStr
  ty : ItemType
  size : Nat
  created : ℚ
  modified : ℚ
  accessed : ℚ
  path : JStr
  childIds : Option (List Nat)
  metadata : Option ItemMeta
deriving DecidableEq, Repr

/-- Identifier-keyed item map of `buildFileTree` (same `Map` semantics as the
record store). -/
abbrev BMap := List (Nat × BItem)

def bmapSet (m : BMap) (k : Nat) (v : BItem) : BMap :=
  match m with
  | [] => [(k, v)]
  | (k', v') :: rest => if k' = k then (k, v) :: rest else (k', v') :: bmapSet rest k v

def bmapGet (m : BMap) (k : Nat) : Option BItem :=
  match m with
  | [] => none
  | (k', v') :: rest => if k' = k then some v' else bmapGet rest k

def bmapHas (m : BMap) (k : Nat) : Bool := (bmapGet m k).isSome

/-- First pass of `buildFileTree`: a `FileSystemItem` for one record
(`name || File_<id>` models the falsy-empty-string fallback; directories get
an empty children list, files an absent one; `path` starts empty). -/
def mkBItem (fileId : Nat) (r : FileRecord) : BItem :=
  { id := natToStr fileId
    name := if r.fileName.isEmpty then "File_".data ++ natToStr fileId else r.fileName
    ty := if r.isDirectory then .directory else .file
    size := r.fileSize
    created := r.creationTime
    modified := r.modificationTime
    accessed := r.accessTime
    path := []
    childIds := if r.isDirectory then some [] else none
    metadata := some
      { fileId := some fileId, parentId := some r.parentId, attributes := some r.attributes
        isDeleted := some r.isDeleted, md5Hash := r.md5Hash, sha1Hash := r.sha1Hash
        refs := some ⟨fileId / 1000, fileId % 1000, 0⟩ } }

def buildItemMap (store : Store) : BMap :=
  store.map (fun p => (p.1, mkBItem p.1 p.2))

/-- Second pass of `buildFileTree`, for one map entry: roots are records whose
parent identifier is 0 or absent from the map; otherwise, when the parent item
has a children list (i.e. the parent record is a directory), the item is
appended to it and its path is set from the parent's current path; otherwise
nothing happens (`if (parent.children)` fails).  The re-read of the child item
after updating the parent mirrors the source's in-place mutation of shared
objects (relevant when a record is its own parent). -/
def hierarchyStep (store : Store) (s : BMap × List Nat) (fileId : Nat) : BMap × List Nat :=
  let m := s.1
  let roots := s.2
  match storeGet store fileId, bmapGet m fileId with
  | some record, some item =>
    if record.parentId = 0 || !bmapHas m record.parentId then
      (bmapSet m fileId { item with path := '/' :: item.name }, roots ++ [fileId])
    else
      match bmapGet m record.parentId with
      | some parent =>
        match parent.childIds with
        | some cs =>
          let m1 := bmapSet m record.parentId { parent with childIds := some (cs ++ [fileId]) }
          match bmapGet m1 fileId with
          | some item1 =>
              (bmapSet m1 fileId { item1 with path := parent.path ++ '/' :: item1.name }, roots)
          | none => (m1, roots)
        | none => (m, roots)
      | none => (m, roots)
  | _, _ => (m, roots)

/-- Both passes of `buildFileTree`, before materialization: the final item map
and the root identifier list. -/
def buildHierarchy (store : Store) : BMap × List Nat :=
  (store.map Prod.fst).foldl (hierarchyStep store) (buildItemMap store, [])

def ItemCore.ofBItem (bi : BItem) : ItemCore :=
  { id := bi.id, name := bi.name, ty := bi.ty, size := bi.size, created := bi.created
    modified := bi.modified, accessed := bi.accessed, path := bi.path, metadata := bi.metadata }

/-- Read the object graph rooted at `ids` off the item map.  In the source the
result just aliases the shared mutable objects; here the graph is copied out,
with a depth bound (`fuel`) because an identifier cycle would make the object
graph infinite (no finite tree represents it; the claims' inputs are
acyclic). -/
def materializeList (m : BMap) (fuel : Nat) (ids : List Nat) : Forest :=
  match fuel with
  | 0 => .nil
  | fuel + 1 =>
    ids.foldr (fun id acc =>
      match bmapGet m id with
      | none => acc
      | some bi =>
        match bi.childIds with
        | none => .consN (ItemCore.ofBItem bi) acc
        | some cs => .consS (ItemCore.ofBItem bi) (materializeList m fuel cs) acc) .nil

/-- Source `RefsParser.buildFileTree`. -/
def buildFileTree (store : Store) : Forest :=
  let h := buildHierarchy store
  materializeList h.1 (store.length + 1) h.2

/-- Source `RefsParser.generateMockHash`: deterministic fixed-length hex
string from the identifier and a per-algorithm multiplier. -/
def generateMockHash (len seedMul fileId : Nat) : JStr :=
  (List.range len).map (fun i => hexChars.getD ((fileId * seedMul + i) % 16) '0')

/-- Source `RefsParser.calculateHashes`: attach both mock hashes to every
non-directory record of nonzero size. -/
def calculateHashes (st : Store) : Store :=
  st.map (fun p =>
    if !p.2.isDirectory && 0 < p.2.fileSize then
      (p.1, { p.2 with md5Hash := some (generateMockHash 32 31 p.2.fileId)
                       sha1Hash := some (generateMockHash 40 37 p.2.fileId) })
    else p)

/-- Source `RefsParser.parseImage`: the staged pipeline.  Any error escaping a
stage is rethrown as `ReFS parsing failed: …`, modelled by the caller's
`mapError` below.  `calculateHashes` runs after the tree has been built, so
the hashes only ever reach the record store, not the returned tree. -/
def parseImage (b : ByteBuf) (now : ℚ) (rand : Nat → ℚ) : Except RErr Forest := do
  let sb ← parseSuperblock b now
  let st ← parseMetadataTable b sb now rand []
  let st ← traverseBTree b sb st
  let tree := buildFileTree st
  let _ := calculateHashes st
  .ok tree

/-- Source `validateRefsImage` (forensic.ts): rejects only the empty buffer;
every other branch, including the signature probe and its catch handler,
returns `true`. -/
def validateRefsImage (b : ByteBuf) : Bool :=
  if b.len = 0 then false
  else if b.len < 8192 then true
  else if b.len < 0x1E00 + 8 then true
  else
    match readString b 0x1E00 4 with
    | .error _ => true
    | .ok s => if strContains s "ReFS".data || strContains s "REFS".data then true else true

/-- User-visible failure of a parse attempt. -/
inductive ParseFailure where
  | emptyInput
  | parsingFailed (e : RErr)
deriving DecidableEq, Repr

/-- The parse entry point as invoked by the application (`handleAddEvidence`):
a buffer failing `validateRefsImage` raises the empty-input failure, otherwise
`parseImage` runs and any thrown error is surfaced as a parse failure. -/
def analyzeImage (b : ByteBuf) (now : ℚ) (rand : Nat → ℚ) : Except ParseFailure Forest :=
  if validateRefsImage b then (parseImage b now rand).mapError .parsingFailed
  else .error .emptyInput

/-- Source interface `SearchOptions` (search-engine.ts).  `searchInContent` is
carried but never read by the engine. -/
structure SearchOptions where
  query : JStr
  caseSensitive : Bool := false
  useRegex : Bool := false
  searchInPath : Bool := false
  searchInContent : Bool := false
  fileTypes : List JStr := []
  sizeMin : Option Nat := none
  sizeMax : Option Nat := none
  dateFrom : Option ℚ := none
  dateTo : Option ℚ := none
  includeDeleted : Bool := false
  hashSearch : Option JStr := none
deriving DecidableEq, Repr

/-- Field tag of a `SearchMatch`. -/
inductive MField where
  | name | path | content | hash
deriving DecidableEq, Repr

/-- Source interface `SearchMatch`. -/
structure SMatch where
  field : MField
  value : JStr
  startIndex : Nat
  endIndex : Nat
deriving DecidableEq, Repr

/-- Source interface `SearchResult`. -/
structure SearchResult where
  item : Item
  «matches» : List SMatch
  score : Int
deriving DecidableEq, Repr

/-- A compiled global regex: the list of match spans it produces on a text. -/
abbrev Matcher := JStr → List (Nat × Nat)

/-- The JavaScript regex engine, as an oracle: `new RegExp(q, 'gi')` either
throws (`.error`, an invalid pattern) or yields a matcher.  Full JavaScript
regex semantics is outside the embedding; every claim touching regexes only
depends on the throwing case, which the oracle makes explicit. -/
abbrev RegexCompile := JStr → Except Unit Matcher

/-- Match spans of the literal `indexOf` loop: every occurrence start
(ascending, overlapping included) paired with its end. -/
def literalSpans (text query : JStr) : List (Nat × Nat) :=
  (occurrences text query).map (fun i => (i, i + query.length))

/-- The regex oracle that compiles every pattern to its literal matcher. -/
def literalCompile : RegexCompile := fun q => .ok (fun text => literalSpans text q)

/-- Inverted index of the search engine: token → bucket of items. -/
abbrev Index := List (JStr × List Item)

def idxGet (idx : Index) (k : JStr) : List Item :=
  match idx with
  | [] => []
  | (k', v) :: rest => if k' = k then v else idxGet rest k

/-- Append `it` to the bucket of `k`, creating the bucket if absent (the
`if (!has) set(token, []); get(token)!.push(item)` pattern). -/
def idxPush (idx : Index) (k : JStr) (it : Item) : Index :=
  match idx with
  | [] => [(k, [it])]
  | (k', v) :: rest => if k' = k then (k, v ++ [it]) :: rest else (k', v) :: idxPush rest k it

/-- Replace the bucket of `k` wholesale (`Map.set`, used for hash keys). -/
def idxSet (idx : Index) (k : JStr) (v : List Item) : Index :=
  match idx with
  | [] => [(k, v)]
  | (k', v') :: rest => if k' = k then (k, v) :: rest else (k', v') :: idxSet rest k v

/-- Per-item part of `buildSearchIndex`'s `addToIndex`: index the item under
every token of its lowered name and path, then register its hashes as exact
keys (empty hash strings are falsy and skipped). -/
def indexItem (idx : Index) (self : Item) : Index :=
  let idx := (tokenize (lowerStr self.core.name)).foldl (fun a t => idxPush a t self) idx
  let idx := (tokenize (lowerStr self.core.path)).foldl (fun a t => idxPush a t self) idx
  let idx := match self.core.metadata.bind (·.md5Hash) with
             | some h => if h.isEmpty then idx else idxSet idx (lowerStr h) [self]
             | none => idx
  match self.core.metadata.bind (·.sha1Hash) with
  | some h => if h.isEmpty then idx else idxSet idx (lowerStr h) [self]
  | none => idx

/-- Recursive part of `addToIndex`: an item, then its children, then its
siblings. -/
def indexForest (idx : Index) : Forest → Index
  | .nil => idx
  | .consN c rest => indexForest (indexItem idx ⟨c, none⟩) rest
  | .consS c cs rest => indexForest (indexForest (indexItem idx ⟨c, some cs⟩) cs) rest

/-- Source `ForensicSearchEngine.buildSearchIndex`. -/
def buildSearchIndex (items : Forest) : Index := indexForest [] items

/-- Source `ForensicSearchEngine.findTextMatches`: regex path with fall back
to literal search when the pattern does not compile (the `catch`). -/
def findTextMatches (compile : RegexCompile) (text query : JStr) (useRegex : Bool) :
    List (Nat × Nat) :=
  if useRegex then
    match compile query with
    | .error _ => literalSpans text query
    | .ok m => m text
  else literalSpans text query

/-- Source `ForensicSearchEngine.findMatches`: name matches always, path
matches when enabled, hash substring matches when a (non-empty, falsiness)
hash query is present; in that order. -/
def findMatches (compile : RegexCompile) (opts : SearchOptions) (item : Item) : List SMatch :=
  if opts.query.isEmpty then []
  else
    let searchText := if opts.caseSensitive then opts.query else lowerStr opts.query
    let nameText := if opts.caseSensitive then item.core.name else lowerStr item.core.name
    let nameMs := (findTextMatches compile nameText searchText opts.useRegex).map
      (fun s => { field := MField.name, value := item.core.name,
                  startIndex := s.1, endIndex := s.2 })
    let pathMs :=
      if opts.searchInPath then
        let pathText := if opts.caseSensitive then item.core.path else lowerStr item.core.path
        (findTextMatches compile pathText searchText opts.useRegex).map
          (fun s => { field := MField.path, value := item.core.path,
                      startIndex := s.1, endIndex := s.2 })
      else []
    let hashMs :=
      match opts.hashSearch with
      | some hs =>
        if hs.isEmpty then []
        else
          let hq := lowerStr hs
          (match item.core.metadata.bind (·.md5Hash) with
           | some h => if strContains (lowerStr h) hq then
               [{ field := MField.hash, value := h, startIndex := 0, endIndex := h.length }]
             else []
           | none => []) ++
          (match item.core.metadata.bind (·.sha1Hash) with
           | some h => if strContains (lowerStr h) hq then
               [{ field := MField.hash, value := h, startIndex := 0, endIndex := h.length }]
             else []
           | none => [])
      | none => []
    nameMs ++ pathMs ++ hashMs

/-- Per-field score weight of `calculateScore`. -/
def fieldWeight : MField → Int
  | .name => 10
  | .path => 5
  | .hash => 15
  | .content => 3

/-- Source `ForensicSearchEngine.calculateScore`: summed field weights, the
+20 exact-value bonus, +2 for files, −1 for deleted items. -/
def calculateScore (opts : SearchOptions) (item : Item) (ms : List SMatch) : Int :=
  ms.foldl (fun s m => s + fieldWeight m.field) 0
    + (if ms.any (fun m => lowerStr m.value == lowerStr opts.query) then 20 else 0)
    + (if item.core.ty = ItemType.file then 2 else 0)
    + (if item.isDeleted then -1 else 0)

/-- The search result produced for one visited item, if it has any match. -/
def resultFor (compile : RegexCompile) (opts : SearchOptions) (item : Item) :
    Option SearchResult :=
  let ms := findMatches compile opts item
  if ms.isEmpty then none else some ⟨item, ms, calculateScore opts item ms⟩

/-- Source `searchItems` closure of `search`: visit each item unless its id
was already processed (in which case its whole subtree is skipped), record its
result, then descend into its children; the state is the processed-id set and
the result accumulator. -/
def visitForest (resFor : Item → Option SearchResult) :
    Forest → List JStr × List SearchResult → List JStr × List SearchResult
  | .nil, s => s
  | .consN c rest, s =>
      if s.1.contains c.id then visitForest resFor rest s
      else
        let res := match resFor ⟨c, none⟩ with
          | some r => s.2 ++ [r]
          | none => s.2
        visitForest resFor rest (c.id :: s.1, res)
  | .consS c cs rest, s =>
      if s.1.contains c.id then visitForest resFor rest s
      else
        let res := match resFor ⟨c, some cs⟩ with
          | some r => s.2 ++ [r]
          | none => s.2
        visitForest resFor rest (visitForest resFor cs (c.id :: s.1, res))

/-- Add a candidate to the set unless an equal-identified one is present
(JavaScript `Set<object>` deduplicates by reference; tree nodes are distinct
objects exactly when they are distinct values here, and the immediately
following processed-id check makes any id-level difference unobservable). -/
def addCandidate (acc : List Item) (it : Item) : List Item :=
  if acc.any (fun j => j.core.id == it.core.id) then acc else acc ++ [it]

/-- Source `applyFilters`: extension allow-list (the "extension" is the last
`.`-separated chunk, which for a dotless name is the whole name), size range,
modified-date range, and deleted visibility. -/
def applyFilters (opts : SearchOptions) (item : Item) : Bool :=
  (opts.fileTypes.isEmpty ||
    opts.fileTypes.contains (lowerStr ((splitChar '.' item.core.name).getLastD []))) &&
  (match opts.sizeMin with | some m => decide (m ≤ item.core.size) | none => true) &&
  (match opts.sizeMax with | some m => decide (item.core.size ≤ m) | none => true) &&
  (match opts.dateFrom with | some d => decide (d ≤ item.core.modified) | none => true) &&
  (match opts.dateTo with | some d => decide (item.core.modified ≤ d) | none => true) &&
  (opts.includeDeleted || !item.isDeleted)

/-- Stable insertion of a (later-arriving) result into a descending list:
`x` goes after every strictly higher score and before ties that arrived
later... here `x` is the earlier element, so it goes before equal scores. -/
def insertResult (x : SearchResult) : List SearchResult → List SearchResult
  | [] => [x]
  | y :: ys => if y.score ≤ x.score then x :: y :: ys else y :: insertResult x ys

/-- Stable sort by descending score, modelling `sort((a, b) => b.score -
a.score)` (ECMAScript sort is stable; any stable sort under a consistent
comparator yields the same list). -/
def sortResults : List SearchResult → List SearchResult
  | [] => []
  | x :: xs => insertResult x (sortResults xs)

/-- Source `ForensicSearchEngine.search`: index-accelerated candidate
selection for literal queries, full-tree scan otherwise; then filters and the
descending stable sort. -/
def search (items : Forest) (opts : SearchOptions) (compile : RegexCompile) :
    List SearchResult :=
  let raw :=
    if !opts.query.isEmpty && !opts.useRegex then
      let idx := buildSearchIndex items
      let queryTokens := tokenize (lowerStr opts.query)
      let candidates := queryTokens.foldl (fun acc t => (idxGet idx t).foldl addCandidate acc) []
      (visitForest (resultFor compile opts) (Forest.ofItems candidates) ([], [])).2
    else (visitForest (resultFor compile opts) items ([], [])).2
  sortResults (raw.filter (fun r => applyFilters opts r.item))

/-- The full-tree-scan pipeline (the `else` branch of `search`'s candidate
selection, with the same filtering and sorting): the reference point the
index-accelerated path is compared against. -/
def searchScan (items : Forest) (opts : SearchOptions) (compile : RegexCompile) :
    List SearchResult :=
  sortResults (((visitForest (resultFor compile opts) items ([], [])).2).filter
    (fun r => applyFilters opts r.item))

/-- Format tag of `ExportOptions`. -/
inductive ExportFormat where
  | json | csv | xml | html
deriving DecidableEq, Repr

/-- Source interface `ExportOptions` (export-engine.ts); `customFields` is
declared but never read and is omitted. -/
structure ExportOptions where
  format : ExportFormat
  includeMetadata : Bool := false
  includeDeleted : Bool := false
  includeHashes : Bool := false
  flattenStructure : Bool := false
deriving DecidableEq, Repr

/-- Source `ForensicExportEngine.countItems`: full recursive node count. -/
def countItems : Forest → Nat
  | .nil => 0
  | .consN _ rest => 1 + countItems rest
  | .consS _ cs rest => 1 + countItems cs + countItems rest

/-- Source `ForensicExportEngine.flattenItems`: each item is emitted (unless
it is deleted and deleted items are excluded) and then its children are
flattened — note children of an excluded item are still visited. -/
def flattenItems (opts : ExportOptions) : Forest → List Item
  | .nil => []
  | .consN c rest =>
      (if opts.includeDeleted || !(Item.isDeleted ⟨c, none⟩) then [⟨c, none⟩] else []) ++
        flattenItems opts rest
  | .consS c cs rest =>
      (if opts.includeDeleted || !(Item.isDeleted ⟨c, some cs⟩) then [⟨c, some cs⟩] else []) ++
        (flattenItems opts cs ++ flattenItems opts rest)

/-- Source `formatFileSize` (forensic.ts): `i = floor(log bytes / log 1024)`,
then the value rounded to two decimals with trailing zeros dropped
(`parseFloat(x.toFixed(2))`), then the unit.  Floating-point `Math.log` and
`toFixed` are idealised as exact base-1024 logarithm and round-half-up. -/
def formatFileSize (bytes : Nat) : JStr :=
  if bytes = 0 then "0 B".data
  else
    let i := Nat.log 1024 bytes
    let d := 1024 ^ i
    let hundredths := (200 * bytes + d) / (2 * d)
    let fr := hundredths % 100
    let fracPart : JStr :=
      if fr = 0 then []
      else if fr % 10 = 0 then '.' :: natToStr (fr / 10)
      else if fr < 10 then '.' :: '0' :: natToStr fr
      else '.' :: natToStr fr
    natToStr (hundredths / 100) ++ fracPart ++ ' ' ::
      (["B", "KB", "MB", "GB", "TB"].getD i "undefined").data

/-- Metadata block of a processed (JSON-exported) item. -/
structure PMeta where
  fileId : Option Nat
  parentId : Option Nat
  attributes : Option Nat
  isDeleted : Option Bool
  refs : Option RefsInfo
deriving DecidableEq, Repr

/-- Hash block of a processed item. -/
structure PHashes where
  md5 : Option JStr
  sha1 : Option JStr
deriving DecidableEq, Repr

/-- Scalar fields of a processed item (`processItems`' object literal). -/
structure PCore where
  id : JStr
  name : JStr
  ty : ItemType
  size : Nat
  sizeFormatted : JStr
  path : JStr
  created : ℚ
  modified : ℚ
  accessed : ℚ
  metadata : Option PMeta
  hashes : Option PHashes
deriving DecidableEq, Repr

/-- Processed forest, with the optional `children` property inlined as for
`Forest`. -/
inductive PForest where
  | nil : PForest
  | consN : PCore → PForest → PForest
  | consS : PCore → PForest → PForest → PForest
deriving DecidableEq, Repr

/-- Scalar part of `processItems` for one item. -/
def pcoreOf (opts : ExportOptions) (item : Item) : PCore :=
  { id := item.core.id, name := item.core.name, ty := item.core.ty, size := item.core.size
    sizeFormatted := formatFileSize item.core.size, path := item.core.path
    created := item.core.created, modified := item.core.modified, accessed := item.core.accessed
    metadata :=
      if opts.includeMetadata then
        match item.core.metadata with
        | some m => some ⟨m.fileId, m.parentId, m.attributes, m.isDeleted, m.refs⟩
        | none => none
      else none
    hashes :=
      if opts.includeHashes then
        match item.core.metadata with
        | some m => some ⟨m.md5Hash, m.sha1Hash⟩
        | none => none
      else none }

/-- Source `ForensicExportEngine.processItems`: filter by deleted visibility,
map each survivor, and attach processed children only when the children list
is present and non-empty (an excluded item's whole subtree disappears). -/
def processItems (opts : ExportOptions) : Forest → PForest
  | .nil => .nil
  | .consN c rest =>
      if opts.includeDeleted || !(Item.isDeleted ⟨c, none⟩) then
        .consN (pcoreOf opts ⟨c, none⟩) (processItems opts rest)
      else processItems opts rest
  | .consS c cs rest =>
      if opts.includeDeleted || !(Item.isDeleted ⟨c, some cs⟩) then
        match cs with
        | .nil => .consN (pcoreOf opts ⟨c, some cs⟩) (processItems opts rest)
        | _ => .consS (pcoreOf opts ⟨c, some cs⟩) (processItems opts cs) (processItems opts rest)
      else processItems opts rest

/-- Recursive node count of a processed forest. -/
def countPForest : PForest → Nat
  | .nil => 0
  | .consN _ rest => 1 + countPForest rest
  | .consS _ cs rest => 1 + countPForest cs + countPForest rest

/-- Value of the `fileSystem` key of the JSON envelope: the nested processed
tree, or the flat list of raw items. -/
inductive JsonFs where
  | nested : PForest → JsonFs
  | flat : List Item → JsonFs
deriving DecidableEq, Repr

/-- The JSON export envelope (`exportData` of `exportToJson`), before
stringification: export timestamp, echoed options, `totalItems`, and the
nested-or-flat tree. -/
structure JsonExportData where
  timestamp : ℚ
  options : ExportOptions
  totalItems : Nat
  fileSystem : JsonFs
deriving DecidableEq, Repr

/-- Source `ForensicExportEngine.exportToJson`: note `totalItems` is
`countItems(this.items)` — computed on the engine's full input, before any
deleted-visibility filtering. -/
def exportToJson (now : ℚ) (items : Forest) (opts : ExportOptions) : JsonExportData :=
  { timestamp := now
    options := opts
    totalItems := countItems items
    fileSystem :=
      if opts.flattenStructure then .flat (flattenItems opts items)
      else .nested (processItems opts items) }

/-- Recursive node count of the tree actually placed in the envelope. -/
def jsonExportedCount (d : JsonExportData) : Nat :=
  match d.fileSystem with
  | .nested f => countPForest f
  | .flat l => l.length

/-- Reference definition, from the claim's words: the pre-order depth-first
listing of every node of a forest (each node before its children, children
before later siblings). -/
def preorderTraversal : Forest → List Item
  | .nil => []
  | .consN c rest => ⟨c, none⟩ :: preorderTraversal rest
  | .consS c cs rest => ⟨c, some cs⟩ :: (preorderTraversal cs ++ preorderTraversal rest)

/-- Identifiers of all nodes of a forest, in pre-order. -/
def forestIds (f : Forest) : List JStr := (preorderTraversal f).map (fun i => i.core.id)

/-- The node together with its descendants, in pre-order. -/
def preorderItem (a : Item) : List Item :=
  match a.children with
  | none => [a]
  | some cs => a :: preorderTraversal cs

/-- Decidable check of the claimed path invariant for the children of a node
with path `parentPath`: each child's path is `parentPath ++ "/" ++ name`, and
recursively below. -/
def checkChildrenF (parentPath : JStr) : Forest → Bool
  | .nil => true
  | .consN c rest =>
      (c.path == parentPath ++ '/' :: c.name) && checkChildrenF parentPath rest
  | .consS c cs rest =>
      (c.path == parentPath ++ '/' :: c.name) && checkChildrenF c.path cs &&
        checkChildrenF parentPath rest

/-- Decidable check of the claimed path invariant over a whole forest: every
root's path is `"/" ++ name`, every non-root's path is its parent's path ++
`"/"` ++ its name. -/
def pathInvariantHolds : Forest → Bool
  | .nil => true
  | .consN c rest => (c.path == '/' :: c.name) && pathInvariantHolds rest
  | .consS c cs rest =>
      (c.path == '/' :: c.name) && checkChildrenF c.path cs && pathInvariantHolds rest

/-- Root condition of the hierarchy builder: parent identifier 0, or absent
from the store. -/
def isRootRecord (store : Store) (r : FileRecord) : Bool :=
  r.parentId == 0 || !storeHas store r.parentId

/-- Does entry `p` end up in the children list of key `k`?  (Non-root, parent
is `k`, and `k`'s record is a directory.) -/
def isChildOf (store : Store) (k : Nat) (p : Nat × FileRecord) : Bool :=
  p.2.parentId == k && !(isRootRecord store p.2) &&
    (match storeGet store k with
     | some pr => pr.isDirectory
     | none => false)

/-- Every record's resolvable parent occurs strictly earlier in the store's
insertion order. -/
def ParentsFirst (store : Store) : Prop :=
  ∀ i : Fin store.length, (store.get i).2.parentId ≠ 0 →
    storeHas store (store.get i).2.parentId = true →
    storeHas (store.take i) (store.get i).2.parentId = true

instance (store : Store) : Decidable (ParentsFirst store) := by
  unfold ParentsFirst; infer_instance

/-- A regex oracle that rejects every pattern (an invalid-pattern stand-in for
concrete evaluations). -/
def failCompile : RegexCompile := fun _ => .error ()

/-- Concrete record constructor for counterexample stores. -/
def sampleRec (id parent : Nat) (name : String) (isDir : Bool) : FileRecord :=
  { fileId := id, parentId := parent, fileName := name.data, fileSize := 0
    attributes := if isDir then 0x10 else 0x20
    creationTime := 0, modificationTime := 0, accessTime := 0
    isDirectory := isDir, isDeleted := false }

/-- Buffer that makes the parse pipeline throw: 40970 bytes, no signature, so
the mock geometry (root block 10, block size 4096) is used; block 10 starts at
offset 40960 (in bounds) and decodes as a leaf with one entry, whose 2-byte
size read at offset 40976 overruns the buffer. -/
def cexBuf : ByteBuf :=
  ⟨40970, fun i => if i = 40960 then 1 else if i = 40964 then 1 else 0⟩

/-- All-zero buffer of length `n`. -/
def zeroBuf (n : Nat) : ByteBuf := ⟨n, fun _ => 0⟩

/-- Store whose second record's parent exists but is a file: record 2 is
placed nowhere. -/
def c2Store : Store := [(1, sampleRec 1 0 "A" false), (2, sampleRec 2 1 "C" false)]

/-- Store inserted child-before-parent: record 2 (child of directory 1)
precedes record 1. -/
def c3Store : Store := [(2, sampleRec 2 1 "C" false), (1, sampleRec 1 0 "A" true)]

/-- Store inserted parent-before-child (for the amended order-sensitive
claims). -/
def w3Store : Store := [(1, sampleRec 1 0 "A" true), (2, sampleRec 2 1 "C" false)]

/-- One deleted item (export counterexample input). -/
def c6Core : ItemCore :=
  { id := "9".data, name := "x".data, ty := .file, size := 0, created := 0, modified := 0
    accessed := 0, path := "/x".data, metadata := some { isDeleted := some true } }

def c6Forest : Forest := .consN c6Core .nil

def c6Opts : ExportOptions := { format := .json, includeDeleted := false }

/-- Item whose name contains the query only strictly inside a token: the
token index cannot find it. -/
def c9Core : ItemCore :=
  { id := "1".data, name := "xax".data, ty := .file, size := 0, created := 0, modified := 0
    accessed := 0, path := "/xax".data, metadata := none }

def c9Forest : Forest := .consN c9Core .nil

def c9Opts : SearchOptions := { query := "a".data, includeDeleted := true }

/-- Exact-match item for the scoring witness. -/
def w7Core1 : ItemCore :=
  { id := "1".data, name := "cat".data, ty := .file, size := 0, created := 0, modified := 0
    accessed := 0, path := "/cat".data, metadata := none }

/-- Substring-match item for the scoring witness (name token `cat` keeps it
reachable through the index). -/
def w7Core2 : ItemCore :=
  { id := "2".data, name := "my-cat".data, ty := .file, size := 0, created := 0, modified := 0
    accessed := 0, path := "/my-cat".data, metadata := none }

def w7Forest : Forest := .consN w7Core1 (.consN w7Core2 .nil)

def w7Opts : SearchOptions := { query := "cat".data, includeDeleted := true }

def w7Result1 : SearchResult :=
  { item := ⟨w7Core1, none⟩
    «matches» := [{ field := .name, value := "cat".data, startIndex := 0, endIndex := 3 }]
    score := 32 }

def w7Result2 : SearchResult :=
  { item := ⟨w7Core2, none⟩
    «matches» := [{ field := .name, value := "my-cat".data, startIndex := 3, endIndex := 6 }]
    score := 12 }

/-! ## Theorems -/

theorem flattenItems_all (opts : ExportOptions) (h : opts.includeDeleted = true) :
    ∀ items : Forest, flattenItems opts items = preorderTraversal items := by
  intro items
  induction items with
  | nil => rfl
  | consN c rest ih => simp [flattenItems, preorderTraversal, h, ih]
  | consS c cs rest ih1 ih2 => simp [flattenItems, preorderTraversal, h, ih1, ih2]

theorem preorderTraversal_length :
    ∀ items : Forest, (preorderTraversal items).length = countItems items := by
  intro items
  induction items with
  | nil => rfl
  | consN c rest ih => simp [preorderTraversal, countItems, ih]; omega
  | consS c cs rest ih1 ih2 => simp [preorderTraversal, countItems, ih1, ih2]; omega

theorem processItems_consS_count (opts : ExportOptions) (h : opts.includeDeleted = true)
    (c : ItemCore) (cs rest : Forest) :
    countPForest (processItems opts (.consS c cs rest)) =
      1 + countPForest (processItems opts cs) + countPForest (processItems opts rest) := by
  cases cs <;> simp [processItems, countPForest, h]

theorem countPForest_processItems (opts : ExportOptions) (h : opts.includeDeleted = true) :
    ∀ items : Forest, countPForest (processItems opts items) = countItems items := by
  intro items
  induction items with
  | nil => rfl
  | consN c rest ih => simp [processItems, countItems, countPForest, h, ih]; try omega
  | consS c cs rest ih1 ih2 =>
      rw [processItems_consS_count opts h, ih1, ih2]; simp [countItems]

/-- C10: for every item forest, `flattenItems` with `includeDeleted = true`
returns the pre-order depth-first list of every node of the forest (hence each
node exactly once), and its length equals `countItems` of the same forest. -/
theorem C10_flatten_is_preorder (items : Forest) (opts : ExportOptions)
    (h : opts.includeDeleted = true) :
    flattenItems opts items = preorderTraversal items ∧
    (flattenItems opts items).length = countItems items := by
  refine ⟨flattenItems_all opts h items, ?_⟩
  rw [flattenItems_all opts h items]
  exact preorderTraversal_length items

/-- Witness for C10 at a concrete forest and options. -/
theorem C10_flatten_is_preorder_witness :
    (({ format := .json, includeDeleted := true } : ExportOptions)).includeDeleted = true ∧
    (flattenItems { format := .json, includeDeleted := true } c6Forest =
        preorderTraversal c6Forest ∧
      (flattenItems { format := .json, includeDeleted := true } c6Forest).length =
        countItems c6Forest) :=
  ⟨rfl, C10_flatten_is_preorder c6Forest { format := .json, includeDeleted := true } rfl⟩

/-- C6 counterexample: exporting a single deleted item as JSON with
`includeDeleted = false` produces an envelope whose `totalItems` is 1 while
the exported tree (nested mode shown; the flat mode filters identically) has
0 nodes — `totalItems` is not the count of the tree actually exported. -/
theorem C6_counterexample :
    (exportToJson 0 c6Forest c6Opts).totalItems = 1 ∧
    jsonExportedCount (exportToJson 0 c6Forest c6Opts) = 0 ∧
    (exportToJson 0 c6Forest c6Opts).totalItems ≠
      jsonExportedCount (exportToJson 0 c6Forest c6Opts) := by
  refine ⟨rfl, rfl, ?_⟩; decide

/-- C6 (amended): `totalItems` in the JSON envelope equals the recursive node
count of the engine's *input* forest (counted before deleted-visibility
filtering); it equals the count of the exported tree whenever
`includeDeleted = true`. -/
theorem C6_totalItems_input_count (now : ℚ) (items : Forest) (opts : ExportOptions) :
    (exportToJson now items opts).totalItems = countItems items ∧
    (opts.includeDeleted = true →
      jsonExportedCount (exportToJson now items opts) = countItems items) := by
  refine ⟨rfl, fun h => ?_⟩
  unfold exportToJson jsonExportedCount
  by_cases hf : opts.flattenStructure
  · simp only [hf, if_pos]
    rw [flattenItems_all opts h items]
    exact preorderTraversal_length items
  · simp only [hf, if_neg, Bool.false_eq_true, ite_false]
    exact countPForest_processItems opts h items

/-- Witness for C6's amended theorem at a concrete export. -/
theorem C6_totalItems_input_count_witness :
    (exportToJson 0 c6Forest { format := .json, includeDeleted := true }).totalItems =
      countItems c6Forest ∧
    (({ format := .json, includeDeleted := true } : ExportOptions).includeDeleted = true →
      jsonExportedCount (exportToJson 0 c6Forest { format := .json, includeDeleted := true }) =
        countItems c6Forest) :=
  C6_totalItems_input_count 0 c6Forest { format := .json, includeDeleted := true }

/-- C4 counterexample: a signatureless buffer of 8192 bytes triggers geometry
synthesis, and the synthesized block count is `floor(8192 / 4096) = 2`, not at
least 1000 — `Math.floor(len / 4096) || 1000` substitutes 1000 only when the
quotient is 0, so "minimum 1000" fails. -/
theorem C4_counterexample :
    parseSuperblock (zeroBuf 8192) 0 = .ok (createMockSuperblock 8192 0) ∧
    (createMockSuperblock 8192 0).totalBlocks = 2 ∧
    ¬(1000 ≤ (createMockSuperblock 8192 0).totalBlocks) := by
  refine ⟨rfl, rfl, ?_⟩; decide

/-- C4 (amended): whenever the buffer is shorter than the superblock offset
plus header size (`0x1E00 + 512`), or its signature field lacks the magic
tokens, the locator succeeds with the synthesized geometry: block size 4096,
block count `floor(len / 4096)` — with 1000 substituted only when that floor
is 0 —, root/metadata/checkpoint blocks 10/20/30, the fixed placeholder
volume id, and the constant 2024-01-01 creation epoch. -/
theorem parseSuperblock_mock (b : ByteBuf) (now : ℚ)
    (h : b.len < 0x1E00 + 512 ∨ hasRefsSignature (signatureAt b) = false) :
    parseSuperblock b now = .ok (createMockSuperblock b.len now) := by
  unfold parseSuperblock
  rcases h with h | h
  · rw [if_pos h]
  · by_cases hlen : b.len < 0x1E00 + 512
    · rw [if_pos hlen]
    · rw [if_neg hlen]
      have hread : readString b 0x1E00 8 = .ok (signatureAt b) := by
        unfold readString readBytes signatureAt
        rw [if_pos (by omega)]
        rfl
      rw [hread]
      show (if hasRefsSignature (signatureAt b) = true then _ else _) = _
      rw [if_neg (by simp [h])]

theorem C4_mock_geometry (b : ByteBuf) (now : ℚ)
    (h : b.len < 0x1E00 + 512 ∨ hasRefsSignature (signatureAt b) = false) :
    parseSuperblock b now = .ok (createMockSuperblock b.len now) ∧
    (createMockSuperblock b.len now).blockSize = 4096 ∧
    (createMockSuperblock b.len now).totalBlocks =
      (if b.len / 4096 = 0 then 1000 else b.len / 4096) ∧
    (createMockSuperblock b.len now).rootDirectoryBlock = 10 ∧
    (createMockSuperblock b.len now).metadataTableBlock = 20 ∧
    (createMockSuperblock b.len now).checkpointBlock = 30 ∧
    (createMockSuperblock b.len now).volumeId = "12345678-1234-5678-9abc-123456789abc".data ∧
    (createMockSuperblock b.len now).creationTime = epoch2024 :=
  ⟨parseSuperblock_mock b now h, rfl, rfl, rfl, rfl, rfl, rfl, rfl⟩

/-- Witness for C4's amended theorem at the empty buffer (quotient 0, so the
substituted block count 1000 applies). -/
theorem C4_mock_geometry_witness :
    ((zeroBuf 0).len < 0x1E00 + 512 ∨ hasRefsSignature (signatureAt (zeroBuf 0)) = false) ∧
    parseSuperblock (zeroBuf 0) 7 = .ok (createMockSuperblock (zeroBuf 0).len 7) ∧
    (createMockSuperblock (zeroBuf 0).len 7).totalBlocks = 1000 :=
  ⟨Or.inl (by decide),
   (C4_mock_geometry (zeroBuf 0) 7 (Or.inl (by decide))).1,
   rfl⟩

theorem childVisits_isSome (b : ByteBuf) (tB : Nat)
    (visit : Nat → Store → Option (Except RErr Store))
    (hv : ∀ blk st, (visit blk st).isSome) (childOffset : Nat) :
    ∀ n i st, (childVisits b tB visit childOffset n i st).isSome := by
  intro n
  induction n with
  | zero => intro i st; simp [childVisits]
  | succ n ih =>
      intro i st
      unfold childVisits
      cases hg : getUint32 b (childOffset + i * 4) with
      | error e => simp
      | ok childBlock =>
          simp only
          by_cases hc : (decide (0 < childBlock) && decide (childBlock < tB)) = true
          · rw [if_pos hc]
            have := hv childBlock st
            cases hvv : visit childBlock st with
            | none => rw [hvv] at this; simp at this
            | some r =>
                cases r with
                | error e => simp
                | ok st' => exact ih (i + 1) st'
          · rw [if_neg hc]; exact ih (i + 1) st

theorem traverseAux_total (b : ByteBuf) (sb : Superblock) :
    ∀ fuel depth blockNumber st, 11 ≤ depth + fuel →
      (traverseAux b sb fuel blockNumber depth st).isSome := by
  intro fuel
  induction fuel with
  | zero =>
      intro depth bn st h
      unfold traverseAux
      rw [if_pos (by omega)]
      simp
  | succ fuel ih =>
      intro depth bn st h
      unfold traverseAux
      by_cases hd : 10 < depth
      · rw [if_pos hd]; simp
      · rw [if_neg hd]
        simp only
        by_cases ho : b.len ≤ bn * (if sb.blockSize = 0 then 4096 else sb.blockSize)
        · rw [if_pos ho]; simp
        · rw [if_neg ho]
          cases getUint32 b (bn * (if sb.blockSize = 0 then 4096 else sb.blockSize)) with
          | error e => simp
          | ok nodeHeader =>
              simp only
              cases getUint16 b (bn * (if sb.blockSize = 0 then 4096 else sb.blockSize) + 4) with
              | error e => simp
              | ok keyCount =>
                  simp only
                  by_cases hl : nodeHeader.testBit 0 = true
                  · rw [if_pos hl]; simp
                  · rw [if_neg hl]
                    exact childVisits_isSome b sb.totalBlocks _
                      (fun blk st' => ih (depth + 1) blk st' (by omega)) _ _ 0 st

/-- C5: for every buffer, geometry, starting block, state and depth, the tree
walker completes: with fuel at least `11 - depth` the explicit-fuel traversal
never exhausts its fuel (so the source recursion, whose depth grows by 1 per
level and stops past 10, terminates — cyclic child-pointer graphs included);
a call past the depth cap returns the state unchanged as a success (the
branch is silently cut, the parse is not failed); a computed block offset at
or past the end of the buffer likewise ends the branch silently; and the
actual entry point `traverseBTree` (fuel 12 from depth 0) is the value the
fuel-free recursion would produce. -/
theorem C5_traversal_terminates (b : ByteBuf) (sb : Superblock) (st : Store)
    (blockNumber depth fuel : Nat) :
    (11 ≤ depth + fuel → ∃ r, traverseAux b sb fuel blockNumber depth st = some r) ∧
    (10 < depth → traverseAux b sb fuel blockNumber depth st = some (.ok st)) ∧
    (depth ≤ 10 → fuel ≠ 0 →
      b.len ≤ blockNumber * (if sb.blockSize = 0 then 4096 else sb.blockSize) →
      traverseAux b sb fuel blockNumber depth st = some (.ok st)) ∧
    traverseAux b sb 12 sb.rootDirectoryBlock 0 st = some (traverseBTree b sb st) := by
  refine ⟨?_, ?_, ?_, ?_⟩
  · intro h
    exact Option.isSome_iff_exists.mp (traverseAux_total b sb fuel depth blockNumber st h)
  · intro hd
    unfold traverseAux
    rw [if_pos hd]
  · intro hd hf ho
    unfold traverseAux
    rw [if_neg (by omega)]
    cases fuel with
    | zero => exact absurd rfl hf
    | succ fuel => simp only; rw [if_pos ho]
  · have htot := traverseAux_total b sb 12 0 sb.rootDirectoryBlock st (by omega)
    unfold traverseBTree
    cases hres : traverseAux b sb 12 sb.rootDirectoryBlock 0 st with
    | none => rw [hres] at htot; simp at htot
    | some r => rfl

/-- Witness for C5 at a concrete buffer, geometry, block and two depths (one
below, one above the cap). -/
theorem C5_traversal_terminates_witness :
    (∃ r, traverseAux cexBuf (createMockSuperblock 40970 0) 12 10 0 [] = some r) ∧
    traverseAux cexBuf (createMockSuperblock 40970 0) 12 99 11 [] = some (.ok []) ∧
    traverseAux cexBuf (createMockSuperblock 40970 0) 3 11 0 [] = some (.ok []) := by
  refine ⟨?_, ?_, ?_⟩
  · exact (C5_traversal_terminates cexBuf (createMockSuperblock 40970 0) [] 10 0 12).1
      (by omega)
  · exact (C5_traversal_terminates cexBuf (createMockSuperblock 40970 0) [] 99 11 12).2.1
      (by omega)
  · exact (C5_traversal_terminates cexBuf (createMockSuperblock 40970 0) [] 11 0 3).2.2.1
      (by omega) (by omega) (by decide)

theorem except_bind_ok {α β ε : Type} (a : α) (f : α → Except ε β) :
    (Except.ok a : Except ε α) >>= f = f a := rfl

theorem validateRefsImage_false_iff (b : ByteBuf) :
    validateRefsImage b = false ↔ b.len = 0 := by
  unfold validateRefsImage
  split_ifs with h1 h2 h3
  · simp [h1]
  · simp [h1]
  · simp [h1]
  · cases readString b 0x1E00 4 with
    | error e => simp [h1]
    | ok s => simp [h1]

theorem parseMetadataTable_mocksig (b : ByteBuf) (len : Nat) (now : ℚ) (rand : Nat → ℚ)
    (st : Store) :
    parseMetadataTable b (createMockSuperblock len now) now rand st =
      .ok (generateMockFileSystem now rand st) := by
  have hsig : strContains (createMockSuperblock len now).signature "Mock".data = true := rfl
  simp [parseMetadataTable, hsig]

theorem traverseBTree_unreached (b : ByteBuf) (sb : Superblock) (st : Store)
    (hroot : sb.rootDirectoryBlock = 10) (hbs : sb.blockSize = 4096)
    (h : b.len ≤ 40960) : traverseBTree b sb st = .ok st := by
  have haux : traverseAux b sb 12 sb.rootDirectoryBlock 0 st = some (.ok st) := by
    unfold traverseAux
    rw [if_neg (by omega)]
    simp only
    rw [if_pos (by rw [hroot, hbs]; simpa using h)]
  unfold traverseBTree
  rw [haux]

/-- C1 counterexample: `cexBuf` is non-empty (40970 bytes) yet the parse
pipeline throws: the mock geometry sends the tree walker to block 10 (offset
40960, inside the buffer), the crafted bytes there decode as a leaf with one
entry, and the entry-size read at offset 40976 overruns the buffer — the
resulting `RangeError` escapes `parseImage` as a `ReFS parsing failed` error,
so a non-empty buffer does not always return a result. -/
theorem C1_counterexample :
    cexBuf.len ≠ 0 ∧
    analyzeImage cexBuf 0 (fun _ => 0) = .error (.parsingFailed .rangeError) :=
  ⟨by decide, rfl⟩

/-- C1 (amended): parsing fails with `EmptyInput` exactly on the zero-length
buffer; and every non-empty buffer *shorter than the superblock offset plus
header size* (8192 bytes) — where no pipeline stage reads the buffer at all —
returns the synthetic mock tree.  (Larger buffers can make an in-pipeline
record or node read overrun the buffer and throw, see the counterexample.) -/
theorem C1_emptyInput_iff (b : ByteBuf) (now : ℚ) (rand : Nat → ℚ) :
    (analyzeImage b now rand = .error .emptyInput ↔ b.len = 0) ∧
    (0 < b.len → b.len < 8192 →
      analyzeImage b now rand = .ok (buildFileTree (generateMockFileSystem now rand []))) := by
  have hpipe : 0 < b.len → b.len < 8192 →
      analyzeImage b now rand = .ok (buildFileTree (generateMockFileSystem now rand [])) := by
    intro h0 h8
    have hv : validateRefsImage b = true := by
      cases hvb : validateRefsImage b
      · exact absurd ((validateRefsImage_false_iff b).mp hvb) (by omega)
      · rfl
    unfold analyzeImage
    rw [hv, if_pos rfl]
    unfold parseImage
    rw [parseSuperblock_mock b now (Or.inl (by omega)), except_bind_ok,
        parseMetadataTable_mocksig b b.len now rand [], except_bind_ok,
        traverseBTree_unreached b _ _ rfl rfl (by omega), except_bind_ok]
    rfl
  refine ⟨⟨?_, ?_⟩, hpipe⟩
  · intro h
    by_contra hne
    have hv : validateRefsImage b = true := by
      cases hvb : validateRefsImage b
      · exact absurd ((validateRefsImage_false_iff b).mp hvb) hne
      · rfl
    unfold analyzeImage at h
    rw [hv, if_pos rfl] at h
    cases hp : parseImage b now rand with
    | error e => rw [hp] at h; exact ParseFailure.noConfusion (Except.error.inj h)
    | ok t => rw [hp] at h; exact Except.noConfusion h
  · intro h0
    have hv : validateRefsImage b = false := (validateRefsImage_false_iff b).mpr h0
    unfold analyzeImage
    rw [hv]
    simp

/-- Witness for C1's amended theorem: a 100-byte zero buffer is accepted and
parses to the synthetic tree, and does not raise `EmptyInput`. -/
theorem C1_emptyInput_iff_witness :
    (analyzeImage (zeroBuf 100) 0 (fun _ => 0) = .error .emptyInput ↔ (zeroBuf 100).len = 0) ∧
    analyzeImage (zeroBuf 100) 0 (fun _ => 0) =
      .ok (buildFileTree (generateMockFileSystem 0 (fun _ => 0) [])) :=
  ⟨(C1_emptyInput_iff (zeroBuf 100) 0 (fun _ => 0)).1,
   (C1_emptyInput_iff (zeroBuf 100) 0 (fun _ => 0)).2 (by decide) (by decide)⟩

theorem storeGet_eq_none_iff (s : Store) (k : Nat) :
    storeGet s k = none ↔ k ∉ s.map Prod.fst := by
  induction s with
  | nil => simp [storeGet]
  | cons p rest ih =>
      unfold storeGet
      by_cases h : p.1 = k
      · simp [h]
      · simp [h, ih, Ne.symm h]

theorem storeGet_append_not_mem (l1 l2 : Store) (k : Nat) (r : FileRecord)
    (h : k ∉ l1.map Prod.fst) : storeGet (l1 ++ (k, r) :: l2) k = some r := by
  induction l1 with
  | nil => simp [storeGet]
  | cons p rest ih =>
      unfold storeGet
      simp only [List.cons_append]
      have hp : p.1 ≠ k := by simp at h; exact fun he => h.1 he.symm
      rw [if_neg hp]
      exact ih (by simp at h ⊢; exact h.2)

theorem bmapGet_set_self (m : BMap) (k : Nat) (v : BItem) :
    bmapGet (bmapSet m k v) k = some v := by
  induction m with
  | nil => simp [bmapSet, bmapGet]
  | cons p rest ih =>
      unfold bmapSet
      by_cases h : p.1 = k
      · simp [h, bmapGet]
      · simp only [if_neg h]
        unfold bmapGet
        rw [if_neg h]
        exact ih

theorem bmapGet_set_ne (m : BMap) (k k' : Nat) (v : BItem) (h : k' ≠ k) :
    bmapGet (bmapSet m k v) k' = bmapGet m k' := by
  induction m with
  | nil => simp [bmapSet, bmapGet, Ne.symm h]
  | cons p rest ih =>
      unfold bmapSet
      by_cases hp : p.1 = k
      · rw [if_pos hp]
        unfold bmapGet
        rw [if_neg (Ne.symm h), if_neg (by rw [hp]; exact Ne.symm h)]
      · simp only [if_neg hp]
        unfold bmapGet
        by_cases hp' : p.1 = k'
        · rw [if_pos hp', if_pos hp']
        · rw [if_neg hp', if_neg hp']
          exact ih

theorem bmapGet_buildItemMap (store : Store) (k : Nat) :
    bmapGet (buildItemMap store) k = (storeGet store k).map (fun r => mkBItem k r) := by
  induction store with
  | nil => simp [buildItemMap, bmapGet, storeGet]
  | cons p rest ih =>
      unfold buildItemMap bmapGet storeGet
      by_cases h : p.1 = k
      · subst h; simp
      · simp only [List.map_cons, if_neg h]
        exact ih

theorem bmapHas_of_store (store : Store) (m : BMap)
    (h1 : ∀ k, storeGet store k = none → bmapGet m k = none)
    (h2 : ∀ k r, storeGet store k = some r → ∃ bi, bmapGet m k = some bi) :
    ∀ x, bmapHas m x = storeHas store x := by
  intro x
  unfold bmapHas storeHas
  cases hx : storeGet store x with
  | none => rw [h1 x hx]; rfl
  | some r => obtain ⟨bi, hbi⟩ := h2 x r hx; rw [hbi]; rfl

theorem hierarchy_inv (store : Store) (hnd : (store.map Prod.fst).Nodup) :
    ∀ pre post, store = pre ++ post →
      (∀ k, storeGet store k = none →
        bmapGet ((pre.map Prod.fst).foldl (hierarchyStep store) (buildItemMap store, [])).1 k =
          none) ∧
      (∀ k r, storeGet store k = some r →
        ∃ bi,
          bmapGet ((pre.map Prod.fst).foldl (hierarchyStep store) (buildItemMap store, [])).1 k =
            some bi ∧
          bi.childIds.isSome = r.isDirectory ∧
          bi.childIds.getD [] = (pre.filter (fun p => isChildOf store k p)).map Prod.fst) ∧
      ((pre.map Prod.fst).foldl (hierarchyStep store) (buildItemMap store, [])).2 =
        (pre.filter (fun p => isRootRecord store p.2)).map Prod.fst := by
  intro pre
  induction pre using List.reverseRecOn with
  | nil =>
      intro post hdec
      refine ⟨?_, ?_, rfl⟩
      · intro k hk
        simp only [List.map_nil, List.foldl_nil]
        rw [bmapGet_buildItemMap, hk]
        rfl
      · intro k r hk
        simp only [List.map_nil, List.foldl_nil]
        rw [bmapGet_buildItemMap, hk]
        refine ⟨mkBItem k r, rfl, ?_, ?_⟩
        · unfold mkBItem
          cases r.isDirectory <;> rfl
        · unfold mkBItem
          cases hdir : r.isDirectory <;> simp [hdir]
  | append_singleton pre' p ih =>
      intro post hdec
      have hdec' : store = pre' ++ p :: post := by rw [hdec]; simp
      obtain ⟨ihn, ihs, ihr⟩ := ih (p :: post) hdec'
      set s0 := (pre'.map Prod.fst).foldl (hierarchyStep store) (buildItemMap store, []) with hs0
      have hfold :
          ((pre' ++ [p]).map Prod.fst).foldl (hierarchyStep store) (buildItemMap store, []) =
            hierarchyStep store s0 p.1 := by
        rw [List.map_append, List.foldl_append]
        rfl
      have hk0 : p.1 ∉ pre'.map Prod.fst := by
        have hmid : (store.map Prod.fst).Nodup := hnd
        rw [hdec'] at hmid
        simp only [List.map_append, List.map_cons] at hmid
        rw [List.nodup_middle, List.nodup_cons] at hmid
        intro hmem
        exact hmid.1 (List.mem_append_left _ hmem)
      have hget0 : storeGet store p.1 = some p.2 := by
        rw [hdec']
        exact storeGet_append_not_mem pre' post p.1 p.2 hk0
      obtain ⟨bi0, hbi0, hiso0, hch0⟩ := ihs p.1 p.2 hget0
      have hhas : ∀ x, bmapHas s0.1 x = storeHas store x :=
        bmapHas_of_store store s0.1 ihn (fun k r hk => (ihs k r hk).imp fun bi h => h.1)
      have hcond : (decide (p.2.parentId = 0) || !bmapHas s0.1 p.2.parentId) =
          isRootRecord store p.2 := by
        unfold isRootRecord
        rw [hhas p.2.parentId]
        congr 1
      have hstep : hierarchyStep store s0 p.1 =
          (if (decide (p.2.parentId = 0) || !bmapHas s0.1 p.2.parentId) = true then
            (bmapSet s0.1 p.1 { bi0 with path := '/' :: bi0.name }, s0.2 ++ [p.1])
          else
            match bmapGet s0.1 p.2.parentId with
            | some parent =>
              match parent.childIds with
              | some cs =>
                let m1 := bmapSet s0.1 p.2.parentId
                  { parent with childIds := some (cs ++ [p.1]) }
                match bmapGet m1 p.1 with
                | some item1 =>
                    (bmapSet m1 p.1 { item1 with path := parent.path ++ '/' :: item1.name },
                      s0.2)
                | none => (m1, s0.2)
              | none => (s0.1, s0.2)
            | none => (s0.1, s0.2)) := by
        unfold hierarchyStep
        simp only [hget0, hbi0]
      by_cases hroot : isRootRecord store p.2 = true
      · -- root branch
        rw [hfold, hstep, hcond, if_pos hroot]
        have hnotchild : ∀ k, isChildOf store k p = false := by
          intro k
          unfold isChildOf
          rw [hroot]
          simp
        refine ⟨?_, ?_, ?_⟩
        · intro k hk
          have hkne : k ≠ p.1 := fun he => by rw [he, hget0] at hk; cases hk
          simpa [bmapGet_set_ne _ _ _ _ hkne] using ihn k hk
        · intro k r hk
          by_cases hke : k = p.1
          · subst hke
            have hre : r = p.2 := by rw [hget0] at hk; exact (Option.some.inj hk).symm
            subst hre
            refine ⟨{ bi0 with path := '/' :: bi0.name }, bmapGet_set_self _ _ _, hiso0, ?_⟩
            rw [List.filter_append]
            simp [hnotchild, hch0]
          · obtain ⟨bi, hbi, hiso, hch⟩ := ihs k r hk
            refine ⟨bi, ?_, hiso, ?_⟩
            · rw [bmapGet_set_ne _ _ _ _ hke]; exact hbi
            · rw [List.filter_append]
              simp [hnotchild, hch]
        · simp only []
          rw [ihr, List.filter_append]
          simp [hroot]
      · -- non-root branch
        have hrootf : isRootRecord store p.2 = false := by
          cases h : isRootRecord store p.2
          · rfl
          · exact absurd h hroot
        rw [hfold, hstep, hcond, if_neg (by rw [hrootf]; simp)]
        have hparent : storeHas store p.2.parentId = true := by
          unfold isRootRecord at hrootf
          rcases Bool.or_eq_false_iff.mp hrootf with ⟨h1, h2⟩
          cases h : storeHas store p.2.parentId
          · rw [h] at h2; cases h2
          · rfl
        obtain ⟨rp, hrp⟩ : ∃ rp, storeGet store p.2.parentId = some rp := by
          unfold storeHas at hparent
          cases h : storeGet store p.2.parentId with
          | none => rw [h] at hparent; cases hparent
          | some rp => exact ⟨rp, rfl⟩
        obtain ⟨bp, hbp, hbpiso, hbpch⟩ := ihs p.2.parentId rp hrp
        simp only [hbp]
        by_cases hdir : rp.isDirectory = true
        · -- parent is a directory: the child is appended
          obtain ⟨cs, hcs⟩ : ∃ cs, bp.childIds = some cs := by
            rw [hdir] at hbpiso
            cases h : bp.childIds with
            | none => rw [h] at hbpiso; cases hbpiso
            | some cs => exact ⟨cs, rfl⟩
          simp only [hcs]
          have hchildp : ∀ k, isChildOf store k p = (decide (k = p.2.parentId)) := by
            intro k
            unfold isChildOf
            by_cases hke : p.2.parentId = k
            · subst hke
              simp [hrp, hrootf, hdir]
            · simp [hke, Ne.symm hke]
          by_cases hself : p.1 = p.2.parentId
          · -- the record is its own parent
            rw [← hself] at hbp ⊢
            have hb0 : bp = bi0 := by rw [hbp] at hbi0; exact Option.some.inj hbi0
            have hrpp : rp = p.2 := by
              rw [← hself, hget0] at hrp
              exact (Option.some.inj hrp).symm
            simp only [bmapGet_set_self]
            refine ⟨?_, ?_, ?_⟩
            · intro k hk
              have hkne : k ≠ p.1 := fun he => by rw [he, hget0] at hk; cases hk
              rw [bmapGet_set_ne _ _ _ _ hkne, bmapGet_set_ne _ _ _ _ hkne]
              exact ihn k hk
            · intro k r hk
              by_cases hke : k = p.1
              · subst hke
                have hre : r = p.2 := by rw [hget0] at hk; exact (Option.some.inj hk).symm
                subst hre
                refine ⟨_, bmapGet_set_self _ _ _, ?_, ?_⟩
                · simp [← hrpp, hdir]
                · simp only [List.filter_append]
                  rw [hb0] at hcs
                  have hco : bi0.childIds.getD [] = cs := by rw [hcs]; rfl
                  rw [hco] at hch0
                  simp [hchildp, hself, hch0]
              · obtain ⟨bi, hbi, hiso, hch⟩ := ihs k r hk
                refine ⟨bi, ?_, hiso, ?_⟩
                · rw [bmapGet_set_ne _ _ _ _ hke, bmapGet_set_ne _ _ _ _ hke]
                  exact hbi
                · rw [List.filter_append]
                  have : isChildOf store k p = false := by
                    rw [hchildp k]
                    simp [← hself, hke]
                  simp [this, hch]
            · rw [ihr, List.filter_append]
              simp [hrootf]
          · -- ordinary child: parent and child are distinct entries
            rw [bmapGet_set_ne _ _ _ _ hself, hbi0]
            simp only []
            refine ⟨?_, ?_, ?_⟩
            · intro k hk
              have hkne : k ≠ p.1 := fun he => by rw [he, hget0] at hk; cases hk
              have hknep : k ≠ p.2.parentId := fun he => by rw [he, hrp] at hk; cases hk
              rw [bmapGet_set_ne _ _ _ _ hkne, bmapGet_set_ne _ _ _ _ hknep]
              exact ihn k hk
            · intro k r hk
              by_cases hke : k = p.1
              · subst hke
                have hre : r = p.2 := by rw [hget0] at hk; exact (Option.some.inj hk).symm
                subst hre
                refine ⟨_, bmapGet_set_self _ _ _, ?_, ?_⟩
                · simpa using hiso0
                · simp only [List.filter_append]
                  have : isChildOf store p.1 p = false := by
                    rw [hchildp p.1]
                    simp [hself]
                  simp [this, hch0]
              · by_cases hkp : k = p.2.parentId
                · subst hkp
                  have hre : r = rp := by rw [hrp] at hk; exact (Option.some.inj hk).symm
                  subst hre
                  refine ⟨_, by rw [bmapGet_set_ne _ _ _ _ hke]; exact bmapGet_set_self _ _ _,
                    ?_, ?_⟩
                  · rw [hcs] at hbpiso; simpa using hbpiso
                  · simp only [List.filter_append]
                    have hceq : bp.childIds.getD [] = cs := by rw [hcs]; rfl
                    rw [hceq] at hbpch
                    simp [hchildp, hbpch]
                · obtain ⟨bi, hbi, hiso, hch⟩ := ihs k r hk
                  refine ⟨bi, ?_, hiso, ?_⟩
                  · rw [bmapGet_set_ne _ _ _ _ hke, bmapGet_set_ne _ _ _ _ hkp]
                    exact hbi
                  · rw [List.filter_append]
                    have : isChildOf store k p = false := by
                      rw [hchildp k]
                      simp [hkp]
                    simp [this, hch]
            · rw [ihr, List.filter_append]
              simp [hrootf]
        · -- parent exists but is not a directory: nothing happens
          have hcsn : bp.childIds = none := by
            cases h : bp.childIds with
            | none => rfl
            | some cs => rw [h] at hbpiso; simp at hbpiso; rw [hbpiso] at hdir; exact absurd rfl hdir
          simp only [hcsn]
          have hnotchild : ∀ k, isChildOf store k p = false := by
            intro k
            unfold isChildOf
            by_cases hke : p.2.parentId = k
            · subst hke
              simp [hrp, hdir]
            · simp [hke]
          refine ⟨ihn, ?_, ?_⟩
          · intro k r hk
            obtain ⟨bi, hbi, hiso, hch⟩ := ihs k r hk
            refine ⟨bi, hbi, hiso, ?_⟩
            rw [List.filter_append]
            simp [hnotchild, hch]
          · rw [ihr, List.filter_append]
            simp [hrootf]

theorem storeGet_of_mem_nodup (store : Store) (hnd : (store.map Prod.fst).Nodup)
    (p : Nat × FileRecord) (hp : p ∈ store) : storeGet store p.1 = some p.2 := by
  obtain ⟨l1, l2, hdec⟩ := List.append_of_mem hp
  have hk : p.1 ∉ l1.map Prod.fst := by
    rw [hdec] at hnd
    simp only [List.map_append, List.map_cons] at hnd
    rw [List.nodup_middle, List.nodup_cons] at hnd
    intro hmem
    exact hnd.1 (List.mem_append_left _ hmem)
  rw [hdec]
  exact storeGet_append_not_mem l1 l2 p.1 p.2 hk

theorem mem_eq_of_fst_eq_nodup (store : Store) (hnd : (store.map Prod.fst).Nodup)
    (p q : Nat × FileRecord) (hp : p ∈ store) (hq : q ∈ store) (h : p.1 = q.1) : p = q := by
  have h1 := storeGet_of_mem_nodup store hnd p hp
  have h2 := storeGet_of_mem_nodup store hnd q hq
  rw [h] at h1
  rw [h1] at h2
  have : p.2 = q.2 := Option.some.inj h2
  exact Prod.ext h this

/-- C2 counterexample: in `c2Store` record 2's parent (record 1) exists in
the store but is a file; record 2 is placed nowhere — the output forest
consists of the single node with identifier "1", so a record was dropped. -/
theorem C2_counterexample :
    storeGet c2Store 2 = some (sampleRec 2 1 "C" false) ∧
    storeHas c2Store 1 = true ∧
    (sampleRec 1 0 "A" false).isDirectory = false ∧
    forestIds (buildFileTree c2Store) = ["1".data] ∧
    natToStr 2 ∉ forestIds (buildFileTree c2Store) := by
  refine ⟨rfl, rfl, rfl, rfl, ?_⟩; decide

/-- C2 (amended): with distinct record identifiers, the hierarchy builder
places the records as follows.  The root list is exactly the records (in
store order) whose parent identifier is 0 or absent from the store; the
children list of a key `k` is exactly the records (in store order) whose
parent is `k`, provided `k`'s record is a directory; and a record whose
parent exists in the store but is *not* a directory is dropped: it appears
neither among the roots nor in any children list. -/
theorem C2_record_placement (store : Store) (hnd : (store.map Prod.fst).Nodup) :
    (buildHierarchy store).2 =
      (store.filter (fun p => isRootRecord store p.2)).map Prod.fst ∧
    (∀ k r, storeGet store k = some r →
      ∃ bi, bmapGet (buildHierarchy store).1 k = some bi ∧
        bi.childIds.getD [] = (store.filter (fun p => isChildOf store k p)).map Prod.fst) ∧
    (∀ p, p ∈ store → p.2.parentId ≠ 0 →
      (∃ rp, storeGet store p.2.parentId = some rp ∧ rp.isDirectory = false) →
      p.1 ∉ (buildHierarchy store).2 ∧
      (∀ k bi, bmapGet (buildHierarchy store).1 k = some bi →
        p.1 ∉ bi.childIds.getD [])) := by
  obtain ⟨invn, invs, invr⟩ := hierarchy_inv store hnd store [] (by simp)
  unfold buildHierarchy
  refine ⟨invr, fun k r hk => (invs k r hk).imp (fun bi h => ⟨h.1, h.2.2⟩), ?_⟩
  intro p hp h0 ⟨rp, hrp, hrpdir⟩
  have hroot : isRootRecord store p.2 = false := by
    unfold isRootRecord storeHas
    rw [hrp]
    simp [h0]
  constructor
  · rw [invr]
    intro hmem
    simp only [List.mem_map, List.mem_filter] at hmem
    obtain ⟨q, ⟨hqmem, hqroot⟩, hqfst⟩ := hmem
    have := mem_eq_of_fst_eq_nodup store hnd q p hqmem hp hqfst
    rw [this, hroot] at hqroot
    cases hqroot
  · intro k bi hbi
    cases hk : storeGet store k with
    | none => rw [invn k hk] at hbi; cases hbi
    | some r =>
        obtain ⟨bi', hbi', _, hch⟩ := invs k r hk
        rw [hbi'] at hbi
        cases Option.some.inj hbi
        rw [hch]
        intro hmem
        simp only [List.mem_map, List.mem_filter] at hmem
        obtain ⟨q, ⟨hqmem, hqchild⟩, hqfst⟩ := hmem
        have hqp := mem_eq_of_fst_eq_nodup store hnd q p hqmem hp hqfst
        subst hqp
        unfold isChildOf at hqchild
        rw [Bool.and_eq_true, Bool.and_eq_true] at hqchild
        obtain ⟨⟨h1, _⟩, h3⟩ := hqchild
        have hkp : q.2.parentId = k := by simpa using h1
        rw [← hkp, hrp] at h3
        simp only at h3
        rw [h3] at hrpdir
        cases hrpdir

/-- Witness for C2's amended theorem at a concrete two-record store. -/
theorem C2_record_placement_witness :
    ((w3Store.map Prod.fst).Nodup) ∧
    (buildHierarchy w3Store).2 =
      (w3Store.filter (fun p => isRootRecord w3Store p.2)).map Prod.fst :=
  ⟨by decide, (C2_record_placement w3Store (by decide)).1⟩

theorem storeHas_iff_mem (s : Store) (k : Nat) :
    storeHas s k = true ↔ k ∈ s.map Prod.fst := by
  unfold storeHas
  rw [Option.isSome_iff_ne_none]
  constructor
  · intro h
    by_contra hmem
    exact h ((storeGet_eq_none_iff s k).mpr hmem)
  · intro h he
    exact ((storeGet_eq_none_iff s k).mp he) h

theorem parentsFirst_elim (store : Store) (hpf : ParentsFirst store)
    (pre : Store) (p : Nat × FileRecord) (post : Store) (h : store = pre ++ p :: post)
    (h0 : p.2.parentId ≠ 0) (hh : storeHas store p.2.parentId = true) :
    p.2.parentId ∈ pre.map Prod.fst := by
  have hlen : pre.length < store.length := by rw [h]; simp
  have hget : store.get ⟨pre.length, hlen⟩ = p := by
    subst h
    rw [List.get_eq_getElem, List.getElem_append_right (Nat.le_refl _)]
    simp
  have htake : store.take pre.length = pre := by rw [h]; exact List.take_left pre _
  have := hpf ⟨pre.length, hlen⟩
  rw [hget, htake] at this
  exact (storeHas_iff_mem pre p.2.parentId).mp (this h0 hh)

theorem hierarchy_paths (store : Store) (hnd : (store.map Prod.fst).Nodup)
    (hpf : ParentsFirst store) :
    ∀ pre post, store = pre ++ post →
      (∀ k r, storeGet store k = some r → k ∉ pre.map Prod.fst →
        ∃ bi,
          bmapGet ((pre.map Prod.fst).foldl (hierarchyStep store) (buildItemMap store, [])).1 k =
            some bi ∧ bi.path = []) ∧
      (∀ q, q ∈ pre → isRootRecord store q.2 = true →
        ∃ bi,
          bmapGet ((pre.map Prod.fst).foldl (hierarchyStep store) (buildItemMap store, [])).1
              q.1 = some bi ∧ bi.path = '/' :: bi.name) ∧
      (∀ q, q ∈ pre → isRootRecord store q.2 = false →
        (∃ rp, storeGet store q.2.parentId = some rp ∧ rp.isDirectory = true) →
        ∃ bi bp,
          bmapGet ((pre.map Prod.fst).foldl (hierarchyStep store) (buildItemMap store, [])).1
              q.1 = some bi ∧
          bmapGet ((pre.map Prod.fst).foldl (hierarchyStep store) (buildItemMap store, [])).1
              q.2.parentId = some bp ∧
          bi.path = bp.path ++ '/' :: bi.name) := by
  intro pre
  induction pre using List.reverseRecOn with
  | nil =>
      intro post hdec
      refine ⟨?_, by simp, by simp⟩
      intro k r hk _
      simp only [List.map_nil, List.foldl_nil]
      rw [bmapGet_buildItemMap, hk]
      exact ⟨mkBItem k r, rfl, rfl⟩
  | append_singleton pre' p ih =>
      intro post hdec
      have hdec' : store = pre' ++ p :: post := by rw [hdec]; simp
      obtain ⟨pa, pb, pc⟩ := ih (p :: post) hdec'
      obtain ⟨ihn, ihs, ihr⟩ := hierarchy_inv store hnd pre' (p :: post) hdec'
      set s0 := (pre'.map Prod.fst).foldl (hierarchyStep store) (buildItemMap store, []) with hs0
      have hfold :
          ((pre' ++ [p]).map Prod.fst).foldl (hierarchyStep store) (buildItemMap store, []) =
            hierarchyStep store s0 p.1 := by
        rw [List.map_append, List.foldl_append]
        rfl
      have hk0 : p.1 ∉ pre'.map Prod.fst := by
        have hmid : (store.map Prod.fst).Nodup := hnd
        rw [hdec'] at hmid
        simp only [List.map_append, List.map_cons] at hmid
        rw [List.nodup_middle, List.nodup_cons] at hmid
        intro hmem
        exact hmid.1 (List.mem_append_left _ hmem)
      have hget0 : storeGet store p.1 = some p.2 := by
        rw [hdec']
        exact storeGet_append_not_mem pre' post p.1 p.2 hk0
      obtain ⟨bi0, hbi0, hiso0, hch0⟩ := ihs p.1 p.2 hget0
      have hhas : ∀ x, bmapHas s0.1 x = storeHas store x :=
        bmapHas_of_store store s0.1 ihn (fun k r hk => (ihs k r hk).imp fun bi h => h.1)
      have hcond : (decide (p.2.parentId = 0) || !bmapHas s0.1 p.2.parentId) =
          isRootRecord store p.2 := by
        unfold isRootRecord
        rw [hhas p.2.parentId]
        congr 1
      have hstep : hierarchyStep store s0 p.1 =
          (if (decide (p.2.parentId = 0) || !bmapHas s0.1 p.2.parentId) = true then
            (bmapSet s0.1 p.1 { bi0 with path := '/' :: bi0.name }, s0.2 ++ [p.1])
          else
            match bmapGet s0.1 p.2.parentId with
            | some parent =>
              match parent.childIds with
              | some cs =>
                let m1 := bmapSet s0.1 p.2.parentId
                  { parent with childIds := some (cs ++ [p.1]) }
                match bmapGet m1 p.1 with
                | some item1 =>
                    (bmapSet m1 p.1 { item1 with path := parent.path ++ '/' :: item1.name },
                      s0.2)
                | none => (m1, s0.2)
              | none => (s0.1, s0.2)
            | none => (s0.1, s0.2)) := by
        unfold hierarchyStep
        simp only [hget0, hbi0]
      -- parents of already-processed entries live in pre', hence differ from p.1
      have hparent_pre : ∀ q, q ∈ pre' → isRootRecord store q.2 = false →
          q.2.parentId ∈ pre'.map Prod.fst ∧ q.2.parentId ≠ p.1 ∧ q.2.parentId ≠ q.1 := by
        intro q hq hqroot
        obtain ⟨l1, l2, hq12⟩ := List.append_of_mem hq
        have hq0 : q.2.parentId ≠ 0 := by
          intro hz
          unfold isRootRecord at hqroot
          rw [hz] at hqroot
          simp at hqroot
        have hqhas : storeHas store q.2.parentId = true := by
          unfold isRootRecord at hqroot
          rcases Bool.or_eq_false_iff.mp hqroot with ⟨_, h2⟩
          cases hsh : storeHas store q.2.parentId
          · rw [hsh] at h2; cases h2
          · rfl
        have hqdec : store = l1 ++ q :: (l2 ++ [p] ++ post) := by
          rw [hdec, hq12]; simp
        have hmem := parentsFirst_elim store hpf l1 q (l2 ++ [p] ++ post) hqdec hq0 hqhas
        have hq1l1 : q.1 ∉ l1.map Prod.fst := by
          have hmid : (store.map Prod.fst).Nodup := hnd
          rw [hqdec] at hmid
          simp only [List.map_append, List.map_cons] at hmid
          rw [List.nodup_middle, List.nodup_cons] at hmid
          intro hmm
          exact hmid.1 (List.mem_append_left _ hmm)
        have hsub : q.2.parentId ∈ pre'.map Prod.fst := by
          rw [hq12]
          simp only [List.map_append, List.mem_append]
          exact Or.inl hmem
        exact ⟨hsub, fun he => hk0 (he ▸ hsub), fun he => hq1l1 (he ▸ hmem)⟩
      by_cases hroot : isRootRecord store p.2 = true
      · -- root branch
        rw [hfold, hstep, hcond, if_pos hroot]
        refine ⟨?_, ?_, ?_⟩
        · intro k r hk hkmem
          have hkne : k ≠ p.1 := by
            intro he
            exact hkmem (by rw [he]; simp)
          have hkpre : k ∉ pre'.map Prod.fst := by
            intro hmem
            exact hkmem (by simp [hmem])
          obtain ⟨bi, hbi, hpath⟩ := pa k r hk hkpre
          exact ⟨bi, by rw [bmapGet_set_ne _ _ _ _ hkne]; exact hbi, hpath⟩
        · intro q hq hqroot
          rcases List.mem_append.mp hq with hq' | hq'
          · have hqne : q.1 ≠ p.1 := by
              intro he
              exact hk0 (he ▸ List.mem_map_of_mem Prod.fst hq')
            obtain ⟨bi, hbi, hpath⟩ := pb q hq' hqroot
            exact ⟨bi, by rw [bmapGet_set_ne _ _ _ _ hqne]; exact hbi, hpath⟩
          · have hqp : q = p := by simpa using hq'
            subst hqp
            exact ⟨{ bi0 with path := '/' :: bi0.name }, bmapGet_set_self _ _ _, rfl⟩
        · intro q hq hqroot hqdir
          rcases List.mem_append.mp hq with hq' | hq'
          · have hqne : q.1 ≠ p.1 := by
              intro he
              exact hk0 (he ▸ List.mem_map_of_mem Prod.fst hq')
            have hpne : q.2.parentId ≠ p.1 := (hparent_pre q hq' hqroot).2.1
            obtain ⟨bi, bp, hbi, hbp, hpath⟩ := pc q hq' hqroot hqdir
            exact ⟨bi, bp, by rw [bmapGet_set_ne _ _ _ _ hqne]; exact hbi,
              by rw [bmapGet_set_ne _ _ _ _ hpne]; exact hbp, hpath⟩
          · have hqp : q = p := by simpa using hq'
            subst hqp
            rw [hqroot] at hroot
            cases hroot
      · -- non-root branch: the parent is resolvable and already processed
        have hrootf : isRootRecord store p.2 = false := by
          cases h : isRootRecord store p.2
          · rfl
          · exact absurd h hroot
        rw [hfold, hstep, hcond, if_neg (by rw [hrootf]; simp)]
        have h0 : p.2.parentId ≠ 0 := by
          intro hz
          unfold isRootRecord at hrootf
          rw [hz] at hrootf
          simp at hrootf
        have hparenthas : storeHas store p.2.parentId = true := by
          unfold isRootRecord at hrootf
          rcases Bool.or_eq_false_iff.mp hrootf with ⟨_, h2⟩
          cases hsh : storeHas store p.2.parentId
          · rw [hsh] at h2; cases h2
          · rfl
        have hppre : p.2.parentId ∈ pre'.map Prod.fst :=
          parentsFirst_elim store hpf pre' p post hdec' h0 hparenthas
        have hpne : p.2.parentId ≠ p.1 := fun he => hk0 (he ▸ hppre)
        obtain ⟨rp, hrp⟩ : ∃ rp, storeGet store p.2.parentId = some rp := by
          unfold storeHas at hparenthas
          cases h : storeGet store p.2.parentId with
          | none => rw [h] at hparenthas; cases hparenthas
          | some rp => exact ⟨rp, rfl⟩
        obtain ⟨bp, hbp, hbpiso, hbpch⟩ := ihs p.2.parentId rp hrp
        simp only [hbp]
        by_cases hdir : rp.isDirectory = true
        · -- parent is a directory: the child's path is assigned
          obtain ⟨cs, hcs⟩ : ∃ cs, bp.childIds = some cs := by
            rw [hdir] at hbpiso
            cases h : bp.childIds with
            | none => rw [h] at hbpiso; cases hbpiso
            | some cs => exact ⟨cs, rfl⟩
          simp only [hcs]
          have hm1 : bmapGet (bmapSet s0.1 p.2.parentId
              { bp with childIds := some (cs ++ [p.1]) }) p.1 = some bi0 := by
            rw [bmapGet_set_ne _ _ _ _ (Ne.symm hpne)]
            exact hbi0
          simp only [hm1]
          -- final map: outer update of p.1, inner update of the parent
          have hget2self : bmapGet (bmapSet (bmapSet s0.1 p.2.parentId
              { bp with childIds := some (cs ++ [p.1]) }) p.1
                { bi0 with path := bp.path ++ '/' :: bi0.name }) p.1 =
              some { bi0 with path := bp.path ++ '/' :: bi0.name } := bmapGet_set_self _ _ _
          have hget2par : bmapGet (bmapSet (bmapSet s0.1 p.2.parentId
              { bp with childIds := some (cs ++ [p.1]) }) p.1
                { bi0 with path := bp.path ++ '/' :: bi0.name }) p.2.parentId =
              some { bp with childIds := some (cs ++ [p.1]) } := by
            rw [bmapGet_set_ne _ _ _ _ hpne]
            exact bmapGet_set_self _ _ _
          have hget2other : ∀ x, x ≠ p.1 → x ≠ p.2.parentId →
              bmapGet (bmapSet (bmapSet s0.1 p.2.parentId
                { bp with childIds := some (cs ++ [p.1]) }) p.1
                  { bi0 with path := bp.path ++ '/' :: bi0.name }) x = bmapGet s0.1 x := by
            intro x hx1 hx2
            rw [bmapGet_set_ne _ _ _ _ hx1, bmapGet_set_ne _ _ _ _ hx2]
          refine ⟨?_, ?_, ?_⟩
          · intro k r hk hkmem
            have hkne : k ≠ p.1 := by
              intro he
              exact hkmem (by rw [he]; simp)
            have hkpre : k ∉ pre'.map Prod.fst := by
              intro hmem
              exact hkmem (by simp [hmem])
            have hkpar : k ≠ p.2.parentId := fun he => hkpre (he ▸ hppre)
            obtain ⟨bi, hbi, hpath⟩ := pa k r hk hkpre
            exact ⟨bi, by rw [hget2other k hkne hkpar]; exact hbi, hpath⟩
          · intro q hq hqroot
            rcases List.mem_append.mp hq with hq' | hq'
            · have hqne : q.1 ≠ p.1 := by
                intro he
                exact hk0 (he ▸ List.mem_map_of_mem Prod.fst hq')
              obtain ⟨bi, hbi, hpath⟩ := pb q hq' hqroot
              by_cases hqpar : q.1 = p.2.parentId
              · refine ⟨{ bp with childIds := some (cs ++ [p.1]) }, ?_, ?_⟩
                · rw [hqpar]; exact hget2par
                · have : bi = bp := by
                    rw [hqpar] at hbi
                    rw [hbi] at hbp
                    exact Option.some.inj hbp
                  rw [this] at hpath
                  simpa using hpath
              · exact ⟨bi, by rw [hget2other q.1 hqne hqpar]; exact hbi, hpath⟩
            · have hqp : q = p := by simpa using hq'
              subst hqp
              rw [hqroot] at hrootf
              cases hrootf
          · intro q hq hqroot hqdir
            rcases List.mem_append.mp hq with hq' | hq'
            · have hqne : q.1 ≠ p.1 := by
                intro he
                exact hk0 (he ▸ List.mem_map_of_mem Prod.fst hq')
              obtain ⟨hqin, hqpne, hqpself⟩ := hparent_pre q hq' hqroot
              obtain ⟨bi, bpq, hbi, hbpq, hpath⟩ := pc q hq' hqroot hqdir
              by_cases hqpar : q.1 = p.2.parentId
              · -- the node whose children got extended *is* p's parent
                have hbibp : bi = bp := by
                  rw [hqpar] at hbi
                  rw [hbi] at hbp
                  exact Option.some.inj hbp
                have hqparne : q.2.parentId ≠ p.2.parentId := fun he =>
                  hqpself (by rw [he, ← hqpar])
                refine ⟨{ bp with childIds := some (cs ++ [p.1]) }, bpq, ?_, ?_, ?_⟩
                · rw [hqpar]; exact hget2par
                · rw [hget2other _ hqpne hqparne]; exact hbpq
                · rw [hbibp] at hpath; simpa using hpath
              · by_cases hqppar : q.2.parentId = p.2.parentId
                · -- q's parent is also p's parent
                  have hbpqbp : bpq = bp := by
                    rw [hqppar] at hbpq
                    rw [hbpq] at hbp
                    exact Option.some.inj hbp
                  refine ⟨bi, { bp with childIds := some (cs ++ [p.1]) }, ?_, ?_, ?_⟩
                  · rw [hget2other _ hqne hqpar]; exact hbi
                  · rw [hqppar]; exact hget2par
                  · rw [hbpqbp] at hpath; simpa using hpath
                · refine ⟨bi, bpq, ?_, ?_, hpath⟩
                  · rw [hget2other _ hqne hqpar]; exact hbi
                  · rw [hget2other _ hqpne hqppar]; exact hbpq
            · have hqp : q = p := by simpa using hq'
              rw [hqp]
              exact ⟨{ bi0 with path := bp.path ++ '/' :: bi0.name },
                { bp with childIds := some (cs ++ [p.1]) }, hget2self, hget2par, rfl⟩
        · -- parent exists but is not a directory: state unchanged, and the
          -- new record satisfies no clause (it is dropped with empty path)
          have hcsn : bp.childIds = none := by
            cases h : bp.childIds with
            | none => rfl
            | some cs =>
                rw [h] at hbpiso
                simp at hbpiso
                rw [hbpiso] at hdir
                exact absurd rfl hdir
          simp only [hcsn]
          refine ⟨?_, ?_, ?_⟩
          · intro k r hk hkmem
            have hkpre : k ∉ pre'.map Prod.fst := by
              intro hmem
              exact hkmem (by simp [hmem])
            exact pa k r hk hkpre
          · intro q hq hqroot
            rcases List.mem_append.mp hq with hq' | hq'
            · exact pb q hq' hqroot
            · have hqp : q = p := by simpa using hq'
              subst hqp
              rw [hqroot] at hrootf
              cases hrootf
          · intro q hq hqroot hqdir
            rcases List.mem_append.mp hq with hq' | hq'
            · exact pc q hq' hqroot hqdir
            · have hqp : q = p := by simpa using hq'
              subst hqp
              obtain ⟨rp', hrp', hdir'⟩ := hqdir
              rw [hrp] at hrp'
              rw [(Option.some.inj hrp').symm] at hdir'
              rw [hdir'] at hdir
              exact absurd rfl hdir

theorem materializeList_cons (m : BMap) (fuel : Nat) (id : Nat) (rest : List Nat) :
    materializeList m (fuel + 1) (id :: rest) =
      match bmapGet m id with
      | none => materializeList m (fuel + 1) rest
      | some bi =>
        match bi.childIds with
        | none => .consN (ItemCore.ofBItem bi) (materializeList m (fuel + 1) rest)
        | some cs =>
            .consS (ItemCore.ofBItem bi) (materializeList m fuel cs)
              (materializeList m (fuel + 1) rest) := rfl

theorem checkChildrenF_materialize (m : BMap)
    (hedge : ∀ k bk, bmapGet m k = some bk → ∀ c ∈ bk.childIds.getD [],
      ∃ bc, bmapGet m c = some bc ∧ bc.path = bk.path ++ '/' :: bc.name) :
    ∀ fuel ids pPath,
      (∀ c ∈ ids, ∃ bc, bmapGet m c = some bc ∧ bc.path = pPath ++ '/' :: bc.name) →
      checkChildrenF pPath (materializeList m fuel ids) = true := by
  intro fuel
  induction fuel with
  | zero => intro ids pPath _; rfl
  | succ fuel ihf =>
      intro ids
      induction ids with
      | nil => intro pPath _; rfl
      | cons id rest ihl =>
          intro pPath hids
          obtain ⟨bc, hbc, hpath⟩ := hids id (by simp)
          have hrest := ihl pPath (fun c hc => hids c (by simp [hc]))
          cases hch : bc.childIds with
          | none =>
              simp only [materializeList_cons, hbc, hch]
              simp only [checkChildrenF, Bool.and_eq_true]
              exact ⟨by simp [ItemCore.ofBItem, hpath], hrest⟩
          | some cs =>
              simp only [materializeList_cons, hbc, hch]
              simp only [checkChildrenF, Bool.and_eq_true]
              refine ⟨⟨by simp [ItemCore.ofBItem, hpath], ?_⟩, hrest⟩
              have hkids : ∀ c ∈ cs, ∃ bc', bmapGet m c = some bc' ∧
                  bc'.path = bc.path ++ '/' :: bc'.name := by
                intro c hc
                exact hedge id bc hbc c (by rw [hch]; exact hc)
              exact ihf cs (ItemCore.ofBItem bc).path hkids

theorem pathInvariantHolds_materialize (m : BMap)
    (hedge : ∀ k bk, bmapGet m k = some bk → ∀ c ∈ bk.childIds.getD [],
      ∃ bc, bmapGet m c = some bc ∧ bc.path = bk.path ++ '/' :: bc.name) :
    ∀ fuel ids,
      (∀ r ∈ ids, ∃ br, bmapGet m r = some br ∧ br.path = '/' :: br.name) →
      pathInvariantHolds (materializeList m fuel ids) = true := by
  intro fuel
  cases fuel with
  | zero => intro ids _; rfl
  | succ fuel =>
      intro ids
      induction ids with
      | nil => intro _; rfl
      | cons id rest ihl =>
          intro hids
          obtain ⟨br, hbr, hpath⟩ := hids id (by simp)
          have hrest := ihl (fun r hr => hids r (by simp [hr]))
          cases hch : br.childIds with
          | none =>
              simp only [materializeList_cons, hbr, hch]
              simp only [pathInvariantHolds, Bool.and_eq_true]
              exact ⟨by simp [ItemCore.ofBItem, hpath], hrest⟩
          | some cs =>
              simp only [materializeList_cons, hbr, hch]
              simp only [pathInvariantHolds, Bool.and_eq_true]
              refine ⟨⟨by simp [ItemCore.ofBItem, hpath], ?_⟩, hrest⟩
              have hkids : ∀ c ∈ cs, ∃ bc', bmapGet m c = some bc' ∧
                  bc'.path = br.path ++ '/' :: bc'.name := by
                intro c hc
                exact hedge id br hbr c (by rw [hch]; exact hc)
              exact checkChildrenF_materialize m hedge fuel cs (ItemCore.ofBItem br).path hkids

/-- C3 counterexample: in `c3Store` the child record (2, parent 1) is
inserted before its parent directory (1), so when the child's path is
assigned the parent's path is still empty: the output forest is the root "A"
(path "/A") with child "C" whose path is "/C", not "/A/C" — the path
invariant depends on insertion order. -/
theorem C3_counterexample :
    (c3Store.map Prod.fst).Nodup ∧
    (preorderTraversal (buildFileTree c3Store)).map (fun i => i.core.path) =
      ["/A".data, "/C".data] ∧
    pathInvariantHolds (buildFileTree c3Store) = false := by
  refine ⟨by decide, rfl, rfl⟩

/-- C3 (amended): when record identifiers are distinct and every record's
resolvable parent occurs earlier in insertion order (`ParentsFirst`), the
forest produced by the hierarchy builder satisfies the path invariant: every
root's path is `"/" ++ name` and every non-root node's path is its parent
node's path ++ `"/"` ++ its name.  (Without the order hypothesis the claim
fails, see the counterexample.) -/
theorem C3_path_invariant (store : Store) (hnd : (store.map Prod.fst).Nodup)
    (hpf : ParentsFirst store) :
    pathInvariantHolds (buildFileTree store) = true := by
  obtain ⟨pa, pb, pc⟩ := hierarchy_paths store hnd hpf store [] (by simp)
  obtain ⟨invn, invs, invr⟩ := hierarchy_inv store hnd store [] (by simp)
  unfold buildFileTree buildHierarchy
  apply pathInvariantHolds_materialize
  · intro k bk hbk c hc
    cases hk : storeGet store k with
    | none => rw [invn k hk] at hbk; cases hbk
    | some rk =>
        obtain ⟨bi', hbi', hiso, hch⟩ := invs k rk hk
        rw [hbi'] at hbk
        cases Option.some.inj hbk
        rw [hch] at hc
        simp only [List.mem_map, List.mem_filter] at hc
        obtain ⟨q, ⟨hqmem, hqchild⟩, hqfst⟩ := hc
        unfold isChildOf at hqchild
        rw [Bool.and_eq_true, Bool.and_eq_true] at hqchild
        obtain ⟨⟨h1, h2⟩, h3⟩ := hqchild
        have hparid : q.2.parentId = k := by simpa using h1
        have hqroot : isRootRecord store q.2 = false := by
          cases hir : isRootRecord store q.2
          · rfl
          · rw [hir] at h2; cases h2
        have hdirex : ∃ rp, storeGet store q.2.parentId = some rp ∧ rp.isDirectory = true := by
          rw [hparid]
          cases hgk : storeGet store k with
          | none => rw [hgk] at h3; cases h3
          | some pr => rw [hgk] at h3; exact ⟨pr, rfl, h3⟩
        obtain ⟨bi, bp, hbi, hbp, hpath⟩ := pc q hqmem hqroot hdirex
        rw [hparid] at hbp
        have hbpeq : bp = bk := by
          rw [hbp] at hbi'
          exact Option.some.inj hbi'
        refine ⟨bi, by rw [← hqfst]; exact hbi, ?_⟩
        rw [hpath, hbpeq]
  · intro r hr
    rw [invr] at hr
    simp only [List.mem_map, List.mem_filter] at hr
    obtain ⟨q, ⟨hqmem, hqroot⟩, hqfst⟩ := hr
    obtain ⟨bi, hbi, hpath⟩ := pb q hqmem hqroot
    exact ⟨bi, by rw [← hqfst]; exact hbi, hpath⟩

/-- Witness for C3's amended theorem at a concrete parent-first store. -/
theorem C3_path_invariant_witness :
    (w3Store.map Prod.fst).Nodup ∧ ParentsFirst w3Store ∧
    pathInvariantHolds (buildFileTree w3Store) = true :=
  ⟨by decide, by decide, C3_path_invariant w3Store (by decide) (by decide)⟩

/-- C8: when the regex flag is set but the query does not compile (the
oracle throws), every text-match call falls back to literal substring
matching, and the whole search call returns exactly the results it would
return with every pattern read literally — no error escapes. -/
theorem C8_invalid_regex_fallback (items : Forest) (opts : SearchOptions)
    (compile : RegexCompile) (e : Unit)
    (hreg : opts.useRegex = true)
    (hfail : compile (if opts.caseSensitive then opts.query else lowerStr opts.query) =
      .error e) :
    (∀ text : JStr,
      findTextMatches compile text
          (if opts.caseSensitive then opts.query else lowerStr opts.query) true =
        literalSpans text (if opts.caseSensitive then opts.query else lowerStr opts.query)) ∧
    search items opts compile = search items opts literalCompile := by
  have hftm : ∀ text : JStr,
      findTextMatches compile text
          (if opts.caseSensitive then opts.query else lowerStr opts.query) true =
        literalSpans text (if opts.caseSensitive then opts.query else lowerStr opts.query) := by
    intro text
    simp [findTextMatches, hfail]
  refine ⟨hftm, ?_⟩
  have hfm : ∀ item, findMatches compile opts item = findMatches literalCompile opts item := by
    intro item
    unfold findMatches
    rw [hreg]
    simp only [findTextMatches, literalCompile, hfail]
  have hres : resultFor compile opts = resultFor literalCompile opts := by
    funext item
    unfold resultFor
    rw [hfm]
  unfold search
  rw [hres]

/-- Witness for C8 at a concrete forest, options and failing oracle. -/
theorem C8_invalid_regex_fallback_witness :
    (({ query := "(".data, useRegex := true, includeDeleted := true } : SearchOptions)).useRegex
        = true ∧
    failCompile (lowerStr "(".data) = .error () ∧
    search w7Forest { query := "(".data, useRegex := true, includeDeleted := true }
        failCompile =
      search w7Forest { query := "(".data, useRegex := true, includeDeleted := true }
        literalCompile :=
  ⟨rfl, rfl,
   (C8_invalid_regex_fallback w7Forest
      { query := "(".data, useRegex := true, includeDeleted := true }
      failCompile () rfl rfl).2⟩

theorem mem_insertResult (x r : SearchResult) :
    ∀ l : List SearchResult, r ∈ insertResult x l ↔ r = x ∨ r ∈ l := by
  intro l
  induction l with
  | nil => simp [insertResult]
  | cons y ys ih =>
      unfold insertResult
      by_cases hc : y.score ≤ x.score
      · rw [if_pos hc]; simp
      · rw [if_neg hc]
        simp [ih]
        tauto

theorem mem_sortResults (r : SearchResult) :
    ∀ l : List SearchResult, r ∈ sortResults l ↔ r ∈ l := by
  intro l
  induction l with
  | nil => simp [sortResults]
  | cons x xs ih =>
      unfold sortResults
      rw [mem_insertResult, ih]
      simp

theorem insertResult_pairwise (x : SearchResult) (l : List SearchResult)
    (h : l.Pairwise (fun a b => b.score ≤ a.score)) :
    (insertResult x l).Pairwise (fun a b => b.score ≤ a.score) := by
  induction l with
  | nil => simp [insertResult]
  | cons y ys ih =>
      rw [List.pairwise_cons] at h
      obtain ⟨hy, hys⟩ := h
      unfold insertResult
      by_cases hc : y.score ≤ x.score
      · rw [if_pos hc]
        refine List.Pairwise.cons ?_ (List.Pairwise.cons hy hys)
        intro b hb
        rcases List.mem_cons.mp hb with rfl | hb
        · exact hc
        · exact le_trans (hy b hb) hc
      · rw [if_neg hc]
        refine List.Pairwise.cons ?_ (ih hys)
        intro b hb
        rcases (mem_insertResult x b ys).mp hb with rfl | hb
        · exact le_of_not_le hc
        · exact hy b hb

theorem sortResults_pairwise :
    ∀ l : List SearchResult, (sortResults l).Pairwise (fun a b => b.score ≤ a.score) := by
  intro l
  induction l with
  | nil => simp [sortResults]
  | cons x xs ih => exact insertResult_pairwise x (sortResults xs) ih

theorem visitForest_results (resFor : Item → Option SearchResult) :
    ∀ (f : Forest) (s : List JStr × List SearchResult) (r : SearchResult),
      r ∈ (visitForest resFor f s).2 →
      r ∈ s.2 ∨ ∃ it, it ∈ preorderTraversal f ∧ resFor it = some r := by
  intro f
  induction f with
  | nil => intro s r h; exact Or.inl h
  | consN c rest ih =>
      intro s r h
      unfold visitForest at h
      by_cases hp : s.1.contains c.id
      · rw [if_pos hp] at h
        rcases ih _ r h with h' | ⟨it, hit, hres⟩
        · exact Or.inl h'
        · exact Or.inr ⟨it, by simp [preorderTraversal]; right; exact hit, hres⟩
      · rw [if_neg hp] at h
        cases hr : resFor ⟨c, none⟩ with
        | some r0 =>
            simp only [hr] at h
            rcases ih _ r h with h' | ⟨it, hit, hres⟩
            · rcases List.mem_append.mp h' with h'' | h''
              · exact Or.inl h''
              · have : r = r0 := by simpa using h''
                exact Or.inr ⟨⟨c, none⟩, by simp [preorderTraversal], by rw [hr, this]⟩
            · exact Or.inr ⟨it, by simp [preorderTraversal]; right; exact hit, hres⟩
        | none =>
            simp only [hr] at h
            rcases ih _ r h with h' | ⟨it, hit, hres⟩
            · exact Or.inl h'
            · exact Or.inr ⟨it, by simp [preorderTraversal]; right; exact hit, hres⟩
  | consS c cs rest ihc ihr =>
      intro s r h
      unfold visitForest at h
      by_cases hp : s.1.contains c.id
      · rw [if_pos hp] at h
        rcases ihr _ r h with h' | ⟨it, hit, hres⟩
        · exact Or.inl h'
        · exact Or.inr ⟨it, by simp [preorderTraversal]; right; right; exact hit, hres⟩
      · rw [if_neg hp] at h
        cases hr : resFor ⟨c, some cs⟩ with
        | some r0 =>
            simp only [hr] at h
            rcases ihr _ r h with h' | ⟨it, hit, hres⟩
            · rcases ihc _ r h' with h'' | ⟨it, hit, hres⟩
              · rcases List.mem_append.mp h'' with h3 | h3
                · exact Or.inl h3
                · have : r = r0 := by simpa using h3
                  exact Or.inr ⟨⟨c, some cs⟩, by simp [preorderTraversal], by rw [hr, this]⟩
              · exact Or.inr ⟨it, by simp [preorderTraversal]; right; left; exact hit, hres⟩
            · exact Or.inr ⟨it, by simp [preorderTraversal]; right; right; exact hit, hres⟩
        | none =>
            simp only [hr] at h
            rcases ihr _ r h with h' | ⟨it, hit, hres⟩
            · rcases ihc _ r h' with h'' | ⟨it, hit, hres⟩
              · exact Or.inl h''
              · exact Or.inr ⟨it, by simp [preorderTraversal]; right; left; exact hit, hres⟩
            · exact Or.inr ⟨it, by simp [preorderTraversal]; right; right; exact hit, hres⟩

theorem forestIds_consN (c : ItemCore) (rest : Forest) :
    forestIds (.consN c rest) = c.id :: forestIds rest := rfl

theorem forestIds_consS (c : ItemCore) (cs rest : Forest) :
    forestIds (.consS c cs rest) = c.id :: (forestIds cs ++ forestIds rest) := by
  unfold forestIds
  rw [show preorderTraversal (.consS c cs rest) =
    ⟨c, some cs⟩ :: (preorderTraversal cs ++ preorderTraversal rest) from rfl]
  simp

theorem visitForest_complete (resFor : Item → Option SearchResult) :
    ∀ (f : Forest) (s : List JStr × List SearchResult),
      (forestIds f).Nodup → (∀ id ∈ forestIds f, id ∉ s.1) →
      (visitForest resFor f s).2 = s.2 ++ (preorderTraversal f).filterMap resFor ∧
      (visitForest resFor f s).1 = (forestIds f).reverse ++ s.1 := by
  intro f
  induction f with
  | nil => intro s _ _; simp [visitForest, preorderTraversal, forestIds]
  | consN c rest ih =>
      intro s hnd hdis
      rw [forestIds_consN] at hnd hdis
      have hcid : c.id ∉ s.1 := hdis c.id (by simp)
      have hcont : s.1.contains c.id = false := by
        cases h : s.1.contains c.id
        · rfl
        · exact absurd (List.elem_iff.mp h) hcid
      unfold visitForest
      rw [if_neg (by rw [hcont]; simp)]
      rw [List.nodup_cons] at hnd
      have hdis' : ∀ id ∈ forestIds rest, id ∉ c.id :: s.1 := by
        intro id hid
        simp only [List.mem_cons, not_or]
        exact ⟨fun he => hnd.1 (he ▸ hid), hdis id (by simp [hid])⟩
      cases hr : resFor ⟨c, none⟩ with
      | some r0 =>
          simp only [hr]
          obtain ⟨h2, h1⟩ := ih (c.id :: s.1, s.2 ++ [r0]) hnd.2 hdis'
          refine ⟨?_, ?_⟩
          · rw [h2]
            simp [preorderTraversal, hr]
          · rw [h1, forestIds_consN]
            simp
      | none =>
          simp only [hr]
          obtain ⟨h2, h1⟩ := ih (c.id :: s.1, s.2) hnd.2 hdis'
          refine ⟨?_, ?_⟩
          · rw [h2]
            simp [preorderTraversal, hr]
          · rw [h1, forestIds_consN]
            simp
  | consS c cs rest ihc ihr =>
      intro s hnd hdis
      rw [forestIds_consS] at hnd hdis
      have hcid : c.id ∉ s.1 := hdis c.id (by simp)
      have hcont : s.1.contains c.id = false := by
        cases h : s.1.contains c.id
        · rfl
        · exact absurd (List.elem_iff.mp h) hcid
      unfold visitForest
      rw [if_neg (by rw [hcont]; simp)]
      rw [List.nodup_cons, List.nodup_append] at hnd
      obtain ⟨hcnotin, hndc, hndr, hdisj⟩ := hnd
      have hdisc : ∀ id ∈ forestIds cs, id ∉ c.id :: s.1 := by
        intro id hid
        simp only [List.mem_cons, not_or]
        exact ⟨fun he => hcnotin (he ▸ (by simp [hid] : id ∈ forestIds cs ++ forestIds rest)),
          hdis id (by simp [hid])⟩
      have hbody : ∀ res0 : List SearchResult,
          (visitForest resFor rest
            (visitForest resFor cs (c.id :: s.1, res0))).2 =
              res0 ++ ((preorderTraversal cs).filterMap resFor ++
                (preorderTraversal rest).filterMap resFor) ∧
          (visitForest resFor rest
            (visitForest resFor cs (c.id :: s.1, res0))).1 =
              ((forestIds cs ++ forestIds rest).reverse ++ (c.id :: s.1)) := by
        intro res0
        obtain ⟨hc2, hc1⟩ := ihc (c.id :: s.1, res0) hndc hdisc
        have hdisr : ∀ id ∈ forestIds rest,
            id ∉ (visitForest resFor cs (c.id :: s.1, res0)).1 := by
          intro id hid
          rw [hc1]
          simp only [List.mem_append, List.mem_reverse, List.mem_cons, not_or]
          refine ⟨fun hin => hdisj hin hid, fun he => hcnotin (he ▸ (by simp [hid])),
            hdis id (by simp [hid])⟩
        obtain ⟨hr2, hr1⟩ := ihr _ hndr hdisr
        refine ⟨?_, ?_⟩
        · rw [hr2, hc2]
          simp
        · rw [hr1, hc1]
          simp
      cases hr : resFor ⟨c, some cs⟩ with
      | some r0 =>
          simp only [hr]
          obtain ⟨h2, h1⟩ := hbody (s.2 ++ [r0])
          refine ⟨?_, ?_⟩
          · rw [h2]
            simp [preorderTraversal, hr]
          · rw [h1, forestIds_consS]
            simp
      | none =>
          simp only [hr]
          obtain ⟨h2, h1⟩ := hbody s.2
          refine ⟨?_, ?_⟩
          · rw [h2]
            simp [preorderTraversal, hr]
          · rw [h1, forestIds_consS]
            simp

theorem resultFor_some (compile : RegexCompile) (opts : SearchOptions) (it : Item)
    (r : SearchResult) (h : resultFor compile opts it = some r) :
    r.item = it ∧ r.«matches» = findMatches compile opts it ∧
    r.score = calculateScore opts it (findMatches compile opts it) ∧
    findMatches compile opts it ≠ [] := by
  unfold resultFor at h
  by_cases hm : (findMatches compile opts it).isEmpty
  · simp only [hm, if_pos] at h
    cases h
  · simp only [hm, Bool.false_eq_true, if_false] at h
    cases Option.some.inj h
    exact ⟨rfl, rfl, rfl, by simpa [List.isEmpty_iff] using hm⟩

theorem findMatches_name_value (compile : RegexCompile) (opts : SearchOptions) (it : Item)
    (m : SMatch) (hm : m ∈ findMatches compile opts it) (hf : m.field = MField.name) :
    m.value = it.core.name := by
  unfold findMatches at hm
  by_cases hq : opts.query.isEmpty
  · simp only [hq, if_pos] at hm
    cases hm
  · simp only [hq, Bool.false_eq_true, if_false] at hm
    rcases List.mem_append.mp hm with hm12 | hm3
    · rcases List.mem_append.mp hm12 with hm1 | hm2
      · obtain ⟨sp, _, hme⟩ := List.mem_map.mp hm1
        rw [← hme]
      · by_cases hsp : opts.searchInPath
        · simp only [hsp, if_pos] at hm2
          obtain ⟨sp, _, hme⟩ := List.mem_map.mp hm2
          rw [← hme] at hf
          cases hf
        · simp only [hsp, Bool.false_eq_true, if_false] at hm2
          cases hm2
    · exfalso
      cases hhs : opts.hashSearch with
      | none => rw [hhs] at hm3; cases hm3
      | some hs =>
          rw [hhs] at hm3
          by_cases hse : hs.isEmpty
          · simp only [hse, if_pos] at hm3
            cases hm3
          · simp only [hse, Bool.false_eq_true, if_false] at hm3
            rcases List.mem_append.mp hm3 with hma | hmb
            · cases hmd : it.core.metadata.bind (fun md => md.md5Hash) with
              | none => rw [hmd] at hma; cases hma
              | some hv =>
                  rw [hmd] at hma
                  by_cases hc : strContains (lowerStr hv) (lowerStr hs) = true
                  · simp only [hc, if_pos] at hma
                    have : m.field = MField.hash := by
                      rcases List.mem_singleton.mp hma with rfl
                      rfl
                    rw [hf] at this
                    cases this
                  · simp only [hc] at hma
                    simp at hma
            · cases hmd : it.core.metadata.bind (fun md => md.sha1Hash) with
              | none => rw [hmd] at hmb; cases hmb
              | some hv =>
                  rw [hmd] at hmb
                  by_cases hc : strContains (lowerStr hv) (lowerStr hs) = true
                  · simp only [hc, if_pos] at hmb
                    have : m.field = MField.hash := by
                      rcases List.mem_singleton.mp hmb with rfl
                      rfl
                    rw [hf] at this
                    cases this
                  · simp only [hc] at hmb
                    simp at hmb

theorem foldl_weight (ms : List SMatch) :
    ∀ a : Int, ms.foldl (fun s m => s + fieldWeight m.field) a =
      a + (ms.map (fun m => fieldWeight m.field)).sum := by
  induction ms with
  | nil => intro a; simp
  | cons m rest ih =>
      intro a
      simp only [List.foldl_cons, List.map_cons, List.sum_cons, ih]
      ring

theorem calculateScore_formula (opts : SearchOptions) (it : Item) (ms : List SMatch) :
    calculateScore opts it ms =
      (ms.map (fun m => fieldWeight m.field)).sum +
      (if ms.any (fun m => lowerStr m.value == lowerStr opts.query) then 20 else 0) +
      (if it.core.ty = ItemType.file then 2 else 0) +
      (if it.isDeleted then -1 else 0) := by
  unfold calculateScore
  rw [foldl_weight]
  ring_nf

theorem search_mem_resultFor (items : Forest) (opts : SearchOptions)
    (compile : RegexCompile) (r : SearchResult) (h : r ∈ search items opts compile) :
    ∃ it, resultFor compile opts it = some r := by
  unfold search at h
  by_cases hcond : (!opts.query.isEmpty && !opts.useRegex) = true
  · rw [if_pos hcond] at h
    rw [mem_sortResults] at h
    have hraw := (List.mem_filter.mp h).1
    rcases visitForest_results (resultFor compile opts) _ ([], []) r hraw with h' | ⟨it, _, hres⟩
    · cases h'
    · exact ⟨it, hres⟩
  · rw [if_neg hcond] at h
    rw [mem_sortResults] at h
    have hraw := (List.mem_filter.mp h).1
    rcases visitForest_results (resultFor compile opts) _ ([], []) r hraw with h' | ⟨it, _, hres⟩
    · cases h'
    · exact ⟨it, hres⟩

theorem search_sorted (items : Forest) (opts : SearchOptions) (compile : RegexCompile) :
    (search items opts compile).Pairwise (fun a b => b.score ≤ a.score) := by
  unfold search
  by_cases hcond : (!opts.query.isEmpty && !opts.useRegex) = true
  · rw [if_pos hcond]; exact sortResults_pairwise _
  · rw [if_neg hcond]; exact sortResults_pairwise _

/-- C7: among the results of one search call, a result whose item name equals
the query exactly (case-insensitively, with at least one name-field match)
scores the summed per-match field weights plus the exact-match bonus 20, plus
2 for file kind and −1 if deleted; and it is ordered strictly before any
otherwise-identical result (same matched-field list, kind and deleted flag)
none of whose match values equals the query — i.e. one matching only as a
proper substring. -/
theorem C7_exact_match_outranks (items : Forest) (opts : SearchOptions)
    (compile : RegexCompile) (r1 r2 : SearchResult)
    (h1 : r1 ∈ search items opts compile)
    (h2 : r2 ∈ search items opts compile)
    (hexact : lowerStr r1.item.core.name = lowerStr opts.query)
    (hname : ∃ m ∈ r1.«matches», m.field = MField.name)
    (hproper : ∀ m ∈ r2.«matches», lowerStr m.value ≠ lowerStr opts.query)
    (hfields : r1.«matches».map (fun m => m.field) = r2.«matches».map (fun m => m.field))
    (hkind : r1.item.core.ty = r2.item.core.ty)
    (hdel : r1.item.isDeleted = r2.item.isDeleted) :
    r1.score = (r1.«matches».map (fun m => fieldWeight m.field)).sum + 20 +
      (if r1.item.core.ty = ItemType.file then 2 else 0) +
      (if r1.item.isDeleted then -1 else 0) ∧
    r2.score < r1.score ∧
    (∀ (i j : Fin (search items opts compile).length),
      (search items opts compile).get i = r1 → (search items opts compile).get j = r2 →
      i < j) := by
  obtain ⟨it1, hr1⟩ := search_mem_resultFor items opts compile r1 h1
  obtain ⟨it2, hr2⟩ := search_mem_resultFor items opts compile r2 h2
  obtain ⟨hi1, hm1, hs1, _⟩ := resultFor_some compile opts it1 r1 hr1
  obtain ⟨hi2, hm2, hs2, _⟩ := resultFor_some compile opts it2 r2 hr2
  rw [← hm1, ← hi1] at hs1
  rw [← hm2, ← hi2] at hs2
  have hbonus1 : r1.«matches».any (fun m => lowerStr m.value == lowerStr opts.query) = true := by
    obtain ⟨m, hmmem, hmf⟩ := hname
    rw [List.any_eq_true]
    refine ⟨m, hmmem, ?_⟩
    have hmmem' : m ∈ findMatches compile opts it1 := by rw [← hm1]; exact hmmem
    have hv : m.value = it1.core.name := findMatches_name_value compile opts it1 m hmmem' hmf
    rw [hv, beq_iff_eq, ← hi1]
    exact hexact
  have hbonus2 : r2.«matches».any (fun m => lowerStr m.value == lowerStr opts.query) = false := by
    rw [Bool.eq_false_iff]
    intro hc
    rw [List.any_eq_true] at hc
    obtain ⟨m, hmmem, hmb⟩ := hc
    exact hproper m hmmem (by rwa [beq_iff_eq] at hmb)
  have he1 : r1.score = (r1.«matches».map (fun m => fieldWeight m.field)).sum + 20 +
      (if r1.item.core.ty = ItemType.file then 2 else 0) +
      (if r1.item.isDeleted then -1 else 0) := by
    rw [hs1, calculateScore_formula, hbonus1]
    simp
  have hsums : (r2.«matches».map (fun m => fieldWeight m.field)).sum =
      (r1.«matches».map (fun m => fieldWeight m.field)).sum := by
    have e1 : r1.«matches».map (fun m => fieldWeight m.field) =
        (r1.«matches».map (fun m => m.field)).map fieldWeight := by rw [List.map_map]; rfl
    have e2 : r2.«matches».map (fun m => fieldWeight m.field) =
        (r2.«matches».map (fun m => m.field)).map fieldWeight := by rw [List.map_map]; rfl
    rw [e1, e2, hfields]
  have he2 : r2.score = (r1.«matches».map (fun m => fieldWeight m.field)).sum +
      (if r1.item.core.ty = ItemType.file then 2 else 0) +
      (if r1.item.isDeleted then -1 else 0) := by
    rw [hs2, calculateScore_formula, hbonus2, hsums, ← hkind, ← hdel]
    simp
  have hlt : r2.score < r1.score := by
    rw [he1, he2]
    omega
  refine ⟨he1, hlt, ?_⟩
  intro i j hgi hgj
  rcases lt_trichotomy i j with h | h | h
  · exact h
  · exfalso
    rw [h, hgj] at hgi
    rw [hgi] at hlt
    exact lt_irrefl _ hlt
  · exfalso
    have := List.pairwise_iff_get.mp (search_sorted items opts compile) j i h
    rw [hgi, hgj] at this
    omega

/-- Witness for C7 at a concrete two-item search ("cat" vs "my-cat" on query
"cat"). -/
theorem C7_exact_match_outranks_witness :
    w7Result1 ∈ search w7Forest w7Opts failCompile ∧
    w7Result2 ∈ search w7Forest w7Opts failCompile ∧
    w7Result1.score = (w7Result1.«matches».map (fun m => fieldWeight m.field)).sum + 20 +
      (if w7Result1.item.core.ty = ItemType.file then 2 else 0) +
      (if w7Result1.item.isDeleted then -1 else 0) ∧
    w7Result2.score < w7Result1.score := by
  have h := C7_exact_match_outranks w7Forest w7Opts failCompile w7Result1 w7Result2
    (by decide) (by decide) (by decide) (by decide) (by decide) (by decide) (by decide)
    (by decide)
  exact ⟨by decide, by decide, h.1, h.2.1⟩

theorem idxGet_push (idx : Index) (k : JStr) (x it : Item) :
    ∀ t, it ∈ idxGet (idxPush idx k x) t → it ∈ idxGet idx t ∨ it = x := by
  induction idx with
  | nil =>
      intro t h
      unfold idxPush idxGet at h
      by_cases ht : k = t
      · rw [if_pos ht] at h
        right
        simpa [idxGet] using h
      · rw [if_neg ht] at h
        cases h
  | cons p rest ih =>
      intro t h
      unfold idxPush at h
      by_cases hk : p.1 = k
      · rw [if_pos hk] at h
        unfold idxGet at h ⊢
        by_cases ht : k = t
        · rw [if_pos ht] at h
          rw [show p.1 = t from hk ▸ ht]
          simp only [if_pos rfl]
          rcases List.mem_append.mp h with h' | h'
          · exact Or.inl h'
          · exact Or.inr (by simpa using h')
        · rw [if_neg ht] at h
          rw [if_neg (by rw [hk]; exact ht)]
          exact Or.inl h
      · rw [if_neg hk] at h
        unfold idxGet at h ⊢
        by_cases ht : p.1 = t
        · rw [if_pos ht] at h ⊢
          exact Or.inl h
        · rw [if_neg ht] at h ⊢
          exact ih t h

theorem idxGet_set (idx : Index) (k : JStr) (v : List Item) (it : Item) :
    ∀ t, it ∈ idxGet (idxSet idx k v) t → it ∈ idxGet idx t ∨ it ∈ v := by
  induction idx with
  | nil =>
      intro t h
      unfold idxSet idxGet at h
      by_cases ht : k = t
      · rw [if_pos ht] at h
        exact Or.inr h
      · rw [if_neg ht] at h
        cases h
  | cons p rest ih =>
      intro t h
      unfold idxSet at h
      by_cases hk : p.1 = k
      · rw [if_pos hk] at h
        unfold idxGet at h ⊢
        by_cases ht : k = t
        · rw [if_pos ht] at h
          exact Or.inr h
        · rw [if_neg ht] at h
          rw [if_neg (by rw [hk]; exact ht)]
          exact Or.inl h
      · rw [if_neg hk] at h
        unfold idxGet at h ⊢
        by_cases ht : p.1 = t
        · rw [if_pos ht] at h ⊢
          exact Or.inl h
        · rw [if_neg ht] at h ⊢
          exact ih t h

theorem idxGet_pushTokens (self it : Item) :
    ∀ (tokens : List JStr) (idx : Index) (t : JStr),
      it ∈ idxGet (tokens.foldl (fun a tk => idxPush a tk self) idx) t →
      it ∈ idxGet idx t ∨ it = self := by
  intro tokens
  induction tokens with
  | nil => intro idx t h; exact Or.inl h
  | cons tk rest ih =>
      intro idx t h
      rw [List.foldl_cons] at h
      rcases ih (idxPush idx tk self) t h with h' | h'
      · exact idxGet_push idx tk self it t h'
      · exact Or.inr h'

theorem indexItem_sub (idx : Index) (self it : Item) (t : JStr)
    (h : it ∈ idxGet (indexItem idx self) t) : it ∈ idxGet idx t ∨ it = self := by
  unfold indexItem at h
  have step2 : ∀ (i : Index),
      it ∈ idxGet (match self.core.metadata.bind (fun md => md.sha1Hash) with
        | some hv => if hv.isEmpty then i else idxSet i (lowerStr hv) [self]
        | none => i) t → it ∈ idxGet i t ∨ it = self := by
    intro i hi
    cases hmd : self.core.metadata.bind (fun md => md.sha1Hash) with
    | none => simp only [hmd] at hi; exact Or.inl hi
    | some hv =>
        simp only [hmd] at hi
        by_cases he : hv.isEmpty
        · rw [if_pos he] at hi; exact Or.inl hi
        · rw [if_neg he] at hi
          rcases idxGet_set i (lowerStr hv) [self] it t hi with h' | h'
          · exact Or.inl h'
          · exact Or.inr (by simpa using h')
  have step1 : ∀ (i : Index),
      it ∈ idxGet (match self.core.metadata.bind (fun md => md.md5Hash) with
        | some hv => if hv.isEmpty then i else idxSet i (lowerStr hv) [self]
        | none => i) t → it ∈ idxGet i t ∨ it = self := by
    intro i hi
    cases hmd : self.core.metadata.bind (fun md => md.md5Hash) with
    | none => simp only [hmd] at hi; exact Or.inl hi
    | some hv =>
        simp only [hmd] at hi
        by_cases he : hv.isEmpty
        · rw [if_pos he] at hi; exact Or.inl hi
        · rw [if_neg he] at hi
          rcases idxGet_set i (lowerStr hv) [self] it t hi with h' | h'
          · exact Or.inl h'
          · exact Or.inr (by simpa using h')
  rcases step2 _ h with h1 | heq
  · rcases step1 _ h1 with h2 | heq
    · rcases idxGet_pushTokens self it _ _ t h2 with h3 | heq
      · rcases idxGet_pushTokens self it _ _ t h3 with h4 | heq
        · exact Or.inl h4
        · exact Or.inr heq
      · exact Or.inr heq
    · exact Or.inr heq
  · exact Or.inr heq

theorem indexForest_sub :
    ∀ (f : Forest) (idx : Index) (t : JStr) (it : Item),
      it ∈ idxGet (indexForest idx f) t → it ∈ idxGet idx t ∨ it ∈ preorderTraversal f := by
  intro f
  induction f with
  | nil => intro idx t it h; exact Or.inl h
  | consN c rest ih =>
      intro idx t it h
      unfold indexForest at h
      rcases ih _ t it h with h' | h'
      · rcases indexItem_sub idx ⟨c, none⟩ it t h' with h'' | h''
        · exact Or.inl h''
        · exact Or.inr (by rw [h'']; simp [preorderTraversal])
      · exact Or.inr (by simp [preorderTraversal]; right; exact h')
  | consS c cs rest ihc ihr =>
      intro idx t it h
      unfold indexForest at h
      rcases ihr _ t it h with h' | h'
      · rcases ihc _ t it h' with h'' | h''
        · rcases indexItem_sub idx ⟨c, some cs⟩ it t h'' with h3 | h3
          · exact Or.inl h3
          · exact Or.inr (by rw [h3]; simp [preorderTraversal])
        · exact Or.inr (by simp [preorderTraversal]; right; left; exact h'')
      · exact Or.inr (by simp [preorderTraversal]; right; right; exact h')

theorem mem_preorder_ofItems :
    ∀ (l : List Item) (it : Item),
      it ∈ preorderTraversal (Forest.ofItems l) → ∃ a ∈ l, it ∈ preorderItem a := by
  intro l
  induction l with
  | nil => intro it h; cases h
  | cons a rest ih =>
      intro it h
      obtain ⟨ac, ach⟩ := a
      cases ach with
      | none =>
          simp only [Forest.ofItems, preorderTraversal] at h
          rcases List.mem_cons.mp h with rfl | h'
          · exact ⟨⟨ac, none⟩, by simp, by simp [preorderItem]⟩
          · obtain ⟨b, hb, hib⟩ := ih it h'
            exact ⟨b, by simp [hb], hib⟩
      | some cs =>
          simp only [Forest.ofItems, preorderTraversal] at h
          rcases List.mem_cons.mp h with rfl | h'
          · exact ⟨⟨ac, some cs⟩, by simp, by simp [preorderItem]⟩
          · rcases List.mem_append.mp h' with h'' | h''
            · exact ⟨⟨ac, some cs⟩, by simp, by simp [preorderItem, h'']⟩
            · obtain ⟨b, hb, hib⟩ := ih it h''
              exact ⟨b, by simp [hb], hib⟩

theorem preorderItem_closed :
    ∀ (f : Forest) (a : Item), a ∈ preorderTraversal f →
      ∀ it ∈ preorderItem a, it ∈ preorderTraversal f := by
  intro f
  induction f with
  | nil => intro a h; cases h
  | consN c rest ih =>
      intro a ha it hit
      simp only [preorderTraversal] at ha ⊢
      rcases List.mem_cons.mp ha with rfl | ha'
      · simp only [preorderItem] at hit
        rcases List.mem_singleton.mp hit with rfl
        simp
      · exact List.mem_cons_of_mem _ (ih a ha' it hit)
  | consS c cs rest ihc ihr =>
      intro a ha it hit
      simp only [preorderTraversal] at ha ⊢
      rcases List.mem_cons.mp ha with rfl | ha'
      · simp only [preorderItem] at hit
        rcases List.mem_cons.mp hit with rfl | hit'
        · simp
        · exact List.mem_cons_of_mem _ (List.mem_append_left _ hit')
      · rcases List.mem_append.mp ha' with ha'' | ha''
        · exact List.mem_cons_of_mem _ (List.mem_append_left _ (ihc a ha'' it hit))
        · exact List.mem_cons_of_mem _ (List.mem_append_right _ (ihr a ha'' it hit))

theorem mem_candidates_fold :
    ∀ (l : List Item) (acc : List Item) (it : Item),
      it ∈ l.foldl addCandidate acc → it ∈ acc ∨ it ∈ l := by
  intro l
  induction l with
  | nil => intro acc it h; exact Or.inl h
  | cons x rest ih =>
      intro acc it h
      rw [List.foldl_cons] at h
      rcases ih _ it h with h' | h'
      · unfold addCandidate at h'
        by_cases hc : acc.any (fun j => j.core.id == x.core.id)
        · rw [if_pos hc] at h'
          exact Or.inl h'
        · rw [if_neg hc] at h'
          rcases List.mem_append.mp h' with h'' | h''
          · exact Or.inl h''
          · exact Or.inr (by simp at h''; simp [h''])
      · exact Or.inr (by simp [h'])

theorem mem_candidates (idx : Index) :
    ∀ (tokens : List JStr) (acc : List Item) (it : Item),
      it ∈ tokens.foldl (fun acc t => (idxGet idx t).foldl addCandidate acc) acc →
      it ∈ acc ∨ ∃ t, it ∈ idxGet idx t := by
  intro tokens
  induction tokens with
  | nil => intro acc it h; exact Or.inl h
  | cons tk rest ih =>
      intro acc it h
      rw [List.foldl_cons] at h
      rcases ih _ it h with h' | h'
      · rcases mem_candidates_fold _ _ it h' with h'' | h''
        · exact Or.inl h''
        · exact Or.inr ⟨tk, h''⟩
      · exact Or.inr h'

/-- C9 counterexample: one file named "xax", query "a" (literal search):
scanning the full tree finds the substring match, but the index path looks
up the token bucket "a", which does not exist (the only tokens are "xax"), so
the real search returns no result — the index path loses results. -/
theorem C9_counterexample :
    (search c9Forest c9Opts failCompile).length = 0 ∧
    (searchScan c9Forest c9Opts failCompile).length = 1 ∧
    search c9Forest c9Opts failCompile ≠ searchScan c9Forest c9Opts failCompile := by
  refine ⟨rfl, rfl, ?_⟩
  decide

/-- C9 (amended): with distinct node identifiers, for a non-empty literal
(non-regex) query the index-accelerated path never *adds* results: every
result of the real search is a result of the full-tree scan with the same
item, matches and score.  (The converse fails: a match strictly inside a
token is missed, see the counterexample.) -/
theorem C9_index_subset (items : Forest) (opts : SearchOptions) (compile : RegexCompile)
    (hnd : (forestIds items).Nodup) (hq : opts.query ≠ []) (hreg : opts.useRegex = false) :
    ∀ r ∈ search items opts compile, r ∈ searchScan items opts compile := by
  intro r hr
  have hcond : (!opts.query.isEmpty && !opts.useRegex) = true := by
    simp [hreg, List.isEmpty_iff, hq]
  unfold search at hr
  rw [if_pos hcond, mem_sortResults] at hr
  obtain ⟨hraw, hP⟩ := List.mem_filter.mp hr
  rcases visitForest_results (resultFor compile opts) _ ([], []) r hraw with h0 | ⟨it, hit, hres⟩
  · cases h0
  · obtain ⟨a, ha, hia⟩ := mem_preorder_ofItems _ it hit
    rcases mem_candidates (buildSearchIndex items) _ [] a ha with h0 | ⟨t, hbucket⟩
    · cases h0
    · rcases indexForest_sub items [] t a hbucket with h0 | hmem
      · simp [idxGet] at h0
      · have hitmem : it ∈ preorderTraversal items := preorderItem_closed items a hmem it hia
        unfold searchScan
        rw [mem_sortResults, List.mem_filter]
        refine ⟨?_, hP⟩
        obtain ⟨hvis, _⟩ :=
          visitForest_complete (resultFor compile opts) items ([], []) hnd (by simp)
        rw [hvis]
        simp only [List.nil_append]
        exact List.mem_filterMap.mpr ⟨it, hitmem, hres⟩

/-- Witness for C9's amended theorem: a result of the concrete index-path
search is also a full-scan result. -/
theorem C9_index_subset_witness :
    (forestIds w7Forest).Nodup ∧ w7Opts.query ≠ [] ∧
    w7Result1 ∈ searchScan w7Forest w7Opts failCompile :=
  ⟨by decide, by decide,
   C9_index_subset w7Forest w7Opts failCompile (by decide) (by decide) rfl
     w7Result1 (by decide)⟩

end RefsExplorer
